import Mathlib

/-!
Verification of the rule-similarity pipeline (`rule_similarity_core.py`, `app.py`).

The embedding models:
* `flatten_rule` — the JSON canonicalizer (`rule_similarity_core.py` lines 10-23),
  over a tagged union `JsonVal` of JSON values.  JSON numbers are modelled as
  integers (floating-point numerals are outside the scope of this development);
  Python's `json.loads` is modelled by the executable parser `loads`, and the
  JSON encoding of a value (the spec's "JSON-encoded string of V") by `dumps`,
  which follows `json.dumps(..., ensure_ascii=False)`: it escapes `"`, `\`
  and control characters and leaves all other characters verbatim.
* `compute_similarity_report` — cosine similarity and the pandas based top-k
  neighbor extraction (lines 31-39).  Embedding coordinates are rationals
  (exact arithmetic stands in for IEEE floats).  `Series.sort_values(ascending=False)`
  is modelled the way pandas implements it: a stable ascending argsort whose
  result is reversed (`nargsort`: `indexer = indexer[::-1]`); numpy's default
  sort is insertion sort (hence stable) on the small arrays relevant here.
* `cluster_rules` — DBSCAN(eps = 0.25, min_samples = 1, metric = "cosine")
  labels (`dbscan_labels`) and CountVectorizer-based cluster labelling
  (`top_tokens`), lines 41-61.
* `duplicates_df` — the threshold filter of `app.py` lines 70-71.
-/

namespace RuleSim

/-- JSON-like values as a closed tagged union: object (association list in key
order), array, string, integer numeral, boolean, null.  This is the shape of
the values `json.loads` hands to `flatten_rule`'s inner `rec`. -/
inductive JsonVal where
  | obj  : List (String × JsonVal) → JsonVal
  | arr  : List JsonVal → JsonVal
  | str  : String → JsonVal
  | num  : Int → JsonVal
  | bool : Bool → JsonVal
  | null : JsonVal

mutual

/-- The inner `rec` of `flatten_rule`: objects become `"key:rec(value)"` pairs
joined by one space in key order, arrays become their flattened elements joined
by one space, scalars become Python `str(x)` (`str`→itself, int→decimal,
`True`/`False`, `None`). -/
def jflat : JsonVal → String
  | .obj kvs => String.intercalate " " (jflatPairs kvs)
  | .arr xs => String.intercalate " " (jflatList xs)
  | .str s => s
  | .num n => toString n
  | .bool b => if b then "True" else "False"
  | .null => "None"

/-- The `"key:rec(value)"` strings of an object's pairs, in key order. -/
def jflatPairs : List (String × JsonVal) → List String
  | [] => []
  | (k, v) :: rest => (k ++ ":" ++ jflat v) :: jflatPairs rest

/-- The `rec(element)` strings of an array's elements, in order. -/
def jflatList : List JsonVal → List String
  | [] => []
  | v :: rest => jflat v :: jflatList rest

end

/-- JSON whitespace characters (RFC 8259 / Python `json`). -/
def isWs (c : Char) : Bool :=
  c = ' ' || c = '\t' || c = '\n' || c = '\r'

/-- Skip leading JSON whitespace. -/
def skipWs : List Char → List Char
  | [] => []
  | c :: rest => if isWs c then skipWs rest else c :: rest

/-- Lower-case hexadecimal digit for a value below 16. -/
def hexDigitChar (d : Nat) : Char :=
  Char.ofNat (if d < 10 then 48 + d else 87 + d)

/-- Value of a hexadecimal digit character, if it is one. -/
def hexVal? (c : Char) : Option Nat :=
  if 48 ≤ c.toNat ∧ c.toNat ≤ 57 then some (c.toNat - 48)
  else if 97 ≤ c.toNat ∧ c.toNat ≤ 102 then some (c.toNat - 87)
  else if 65 ≤ c.toNat ∧ c.toNat ≤ 70 then some (c.toNat - 55)
  else none

/-- Four-digit hexadecimal rendering of a value below 0x10000. -/
def hex4 (n : Nat) : List Char :=
  [hexDigitChar (n / 4096 % 16), hexDigitChar (n / 256 % 16),
   hexDigitChar (n / 16 % 16), hexDigitChar (n % 16)]

/-- JSON string escaping of one character, following
`json.dumps(..., ensure_ascii=False)`: `"` and `\` get a backslash escape, the
five controls with short escapes use them, the remaining control characters use
a `\uXXXX` escape, and every other character is left verbatim. -/
def escapeChar (c : Char) : List Char :=
  if c = '"' then ['\\', '"']
  else if c = '\\' then ['\\', '\\']
  else if c = '\n' then ['\\', 'n']
  else if c = '\t' then ['\\', 't']
  else if c = '\r' then ['\\', 'r']
  else if c.toNat = 8 then ['\\', 'b']
  else if c.toNat = 12 then ['\\', 'f']
  else if c.toNat < 32 then '\\' :: 'u' :: hex4 c.toNat
  else [c]

/-- JSON string escaping of a character sequence. -/
def escChars (cs : List Char) : List Char :=
  cs.flatMap escapeChar

/-- A JSON string literal: quote, escaped content, quote. -/
def encStr (s : String) : List Char :=
  '"' :: (escChars s.toList ++ ['"'])

/-- Decimal digit character. -/
def digitChar (d : Nat) : Char :=
  Char.ofNat (48 + d)

/-- Decimal rendering of a natural number (no leading zeros). -/
def natChars (n : Nat) : List Char :=
  if n < 10 then [digitChar n]
  else natChars (n / 10) ++ [digitChar (n % 10)]
termination_by n
decreasing_by exact Nat.div_lt_self (by omega) (by omega)

/-- Decimal rendering of an integer, as Python `str`/`json.dumps` print it. -/
def intChars (n : Int) : List Char :=
  if n < 0 then '-' :: natChars (-n).toNat else natChars n.toNat

mutual

/-- JSON encoding of a value, following `json.dumps` with its default
separators `", "` and `": "` (and `ensure_ascii=False` for strings). -/
def encV : JsonVal → List Char
  | .obj [] => ['\x7b', '\x7d']
  | .obj (kv :: kvs) => '\x7b' :: (encPair kv ++ encPairsTail kvs ++ ['\x7d'])
  | .arr [] => ['[', ']']
  | .arr (x :: xs) => '[' :: (encV x ++ encElemsTail xs ++ [']'])
  | .str s => encStr s
  | .num n => intChars n
  | .bool true => ['t', 'r', 'u', 'e']
  | .bool false => ['f', 'a', 'l', 's', 'e']
  | .null => ['n', 'u', 'l', 'l']

/-- One `"key": value` member of an object encoding. -/
def encPair : String × JsonVal → List Char
  | (k, v) => encStr k ++ (':' :: ' ' :: encV v)

/-- The `", "`-prefixed remaining members of an object encoding. -/
def encPairsTail : List (String × JsonVal) → List Char
  | [] => []
  | kv :: kvs => ',' :: ' ' :: (encPair kv ++ encPairsTail kvs)

/-- The `", "`-prefixed remaining elements of an array encoding. -/
def encElemsTail : List JsonVal → List Char
  | [] => []
  | x :: xs => ',' :: ' ' :: (encV x ++ encElemsTail xs)

end

/-- The JSON-encoded string of a value. -/
def dumps (v : JsonVal) : String :=
  String.mk (encV v)

/-- Parse exactly four hexadecimal digits. -/
def parseHex4 : List Char → Option (Nat × List Char)
  | a :: b :: c :: d :: rest =>
    match hexVal? a, hexVal? b, hexVal? c, hexVal? d with
    | some x, some y, some z, some w => some (4096 * x + 256 * y + 16 * z + w, rest)
    | _, _, _, _ => none
  | _ => none

/-- Decoding of the single-character JSON escapes accepted by `json.loads`. -/
def shortEscape? (e : Char) : Option Char :=
  if e = '"' then some '"'
  else if e = '\\' then some '\\'
  else if e = '/' then some '/'
  else if e = 'n' then some '\n'
  else if e = 't' then some '\t'
  else if e = 'r' then some '\r'
  else if e = 'b' then some (Char.ofNat 8)
  else if e = 'f' then some (Char.ofNat 12)
  else none

/-- Parse the body of a JSON string literal (after the opening quote), strict
mode: raw control characters are rejected, `\uXXXX` escapes are decoded
including surrogate pairs (a lone surrogate is rejected, as Lean characters
are scalar values).  Fuel decreases once per produced character. -/
def parseStrF : Nat → List Char → Option (List Char × List Char)
  | 0, _ => none
  | _ + 1, [] => none
  | fuel + 1, c :: rest =>
    if c = '"' then some ([], rest)
    else if c = '\\' then
      match rest with
      | [] => none
      | e :: rest2 =>
        match shortEscape? e with
        | some d => (fun r => (d :: r.1, r.2)) <$> parseStrF fuel rest2
        | none =>
          if e = 'u' then
            match parseHex4 rest2 with
            | none => none
            | some (n1, rest3) =>
              if 55296 ≤ n1 ∧ n1 < 56320 then
                match rest3 with
                | a :: b :: rest4 =>
                  if a = '\\' ∧ b = 'u' then
                    match parseHex4 rest4 with
                    | some (n2, rest5) =>
                      if 56320 ≤ n2 ∧ n2 < 57344 then
                        (fun r => (Char.ofNat (65536 + (n1 - 55296) * 1024 + (n2 - 56320)) :: r.1, r.2)) <$>
                          parseStrF fuel rest5
                      else none
                    | none => none
                  else none
                | _ => none
              else if 56320 ≤ n1 ∧ n1 < 57344 then none
              else (fun r => (Char.ofNat n1 :: r.1, r.2)) <$> parseStrF fuel rest3
          else none
    else if c.toNat < 32 then none
    else (fun r => (c :: r.1, r.2)) <$> parseStrF fuel rest

/-- Numeric value of a list of decimal digit characters. -/
def digitsVal (ds : List Char) : Nat :=
  ds.foldl (fun a c => a * 10 + (c.toNat - 48)) 0

/-- Parse a run of decimal digits as a natural number.  A following `.`, `e`
or `E` would start a JSON float, which this development does not model, so the
parse is rejected there. -/
def parseNatTok (cs : List Char) : Option (Nat × List Char) :=
  let ds := cs.takeWhile Char.isDigit
  let rest := cs.dropWhile Char.isDigit
  if ds.isEmpty then none
  else
    match rest with
    | c :: _ => if c = '.' ∨ c = 'e' ∨ c = 'E' then none else some (digitsVal ds, rest)
    | [] => some (digitsVal ds, [])

/-- Parse an optionally signed integer numeral. -/
def parseIntTok : List Char → Option (Int × List Char)
  | c :: rest =>
    if c = '-' then (fun r => (-(r.1 : Int), r.2)) <$> parseNatTok rest
    else (fun r => ((r.1 : Int), r.2)) <$> parseNatTok (c :: rest)
  | [] => none

/-- Python `dict` insertion: a repeated key overwrites the value in place,
a fresh key is appended at the end. -/
def insertPair : List (String × JsonVal) → String → JsonVal → List (String × JsonVal)
  | [], k, v => [(k, v)]
  | (k', v') :: rest, k, v =>
    if k' = k then (k', v) :: rest else (k', v') :: insertPair rest k v

mutual

/-- Recursive-descent JSON value parser modelling `json.loads`, fuelled (one
unit per value nesting level and per object/array member). -/
def parseValueF : Nat → List Char → Option (JsonVal × List Char)
  | 0, _ => none
  | fuel + 1, cs0 =>
    match skipWs cs0 with
    | [] => none
    | c :: rest =>
      if c = '"' then
        (fun r => (JsonVal.str (String.mk r.1), r.2)) <$> parseStrF (rest.length + 1) rest
      else if c = '\x7b' then
        match skipWs rest with
        | [] => none
        | d :: rest2 =>
          if d = '\x7d' then some (JsonVal.obj [], rest2)
          else (fun r => (JsonVal.obj r.1, r.2)) <$> parseMembersF fuel [] (d :: rest2)
      else if c = '[' then
        match skipWs rest with
        | [] => none
        | d :: rest2 =>
          if d = ']' then some (JsonVal.arr [], rest2)
          else (fun r => (JsonVal.arr r.1, r.2)) <$> parseElemsF fuel [] (d :: rest2)
      else if c = 't' then
        if rest.take 3 = ['r', 'u', 'e'] then some (JsonVal.bool true, rest.drop 3) else none
      else if c = 'f' then
        if rest.take 4 = ['a', 'l', 's', 'e'] then some (JsonVal.bool false, rest.drop 4) else none
      else if c = 'n' then
        if rest.take 3 = ['u', 'l', 'l'] then some (JsonVal.null, rest.drop 3) else none
      else if c = '-' ∨ c.isDigit then
        (fun r => (JsonVal.num r.1, r.2)) <$> parseIntTok (c :: rest)
      else none

/-- Parse the members of a non-empty JSON object (input positioned at the
first key), accumulating with Python `dict` insertion. -/
def parseMembersF : Nat → List (String × JsonVal) → List Char → Option (List (String × JsonVal) × List Char)
  | 0, _, _ => none
  | fuel + 1, acc, cs =>
    match cs with
    | [] => none
    | c :: rest =>
      if c = '"' then
        match parseStrF (rest.length + 1) rest with
        | none => none
        | some (kcs, rest1) =>
          match skipWs rest1 with
          | [] => none
          | d :: rest3 =>
            if d = ':' then
              match parseValueF fuel (skipWs rest3) with
              | none => none
              | some (v, rest4) =>
                match skipWs rest4 with
                | [] => none
                | e :: rest6 =>
                  if e = ',' then
                    parseMembersF fuel (insertPair acc (String.mk kcs) v) (skipWs rest6)
                  else if e = '\x7d' then some (insertPair acc (String.mk kcs) v, rest6)
                  else none
            else none
      else none

/-- Parse the elements of a non-empty JSON array (input positioned at the
first element). -/
def parseElemsF : Nat → List JsonVal → List Char → Option (List JsonVal × List Char)
  | 0, _, _ => none
  | fuel + 1, acc, cs =>
    match parseValueF fuel cs with
    | none => none
    | some (v, rest1) =>
      match skipWs rest1 with
      | [] => none
      | e :: rest2 =>
        if e = ',' then parseElemsF fuel (acc ++ [v]) (skipWs rest2)
        else if e = ']' then some (acc ++ [v], rest2)
        else none

end

/-- Model of `json.loads`: parse one value and require only whitespace after
it (Python raises "Extra data" otherwise, which the `flatten_rule` fallback
turns into returning the raw string). -/
def loads (s : String) : Option JsonVal :=
  match parseValueF (s.length + 1) s.toList with
  | some (v, rest) => if skipWs rest = [] then some v else none
  | none => none

/-- The argument of `flatten_rule`: either a Python string or an already
structured JSON-like value. -/
inductive RuleInput where
  | str (s : String)
  | val (v : JsonVal)

/-- `flatten_rule` (`rule_similarity_core.py` lines 10-23): a string argument
is parsed as JSON — on failure it is returned unchanged — and the (possibly
parsed) value is flattened by `rec` (here `jflat`). -/
def flatten_rule : RuleInput → String
  | .str s =>
    match loads s with
    | some v => jflat v
    | none => s
  | .val v => jflat v

mutual

/-- Well-formedness of a `JsonVal` as an actual JSON value: every object has
pairwise distinct keys (a Python `dict` cannot hold duplicates). -/
def wfV : JsonVal → Bool
  | .obj kvs => wfPairs kvs
  | .arr xs => wfList xs
  | .str _ => true
  | .num _ => true
  | .bool _ => true
  | .null => true

/-- Well-formedness of object members: head key fresh, all values well-formed. -/
def wfPairs : List (String × JsonVal) → Bool
  | [] => true
  | (k, v) :: rest => !((rest.map Prod.fst).contains k) && wfV v && wfPairs rest

/-- Well-formedness of array elements. -/
def wfList : List JsonVal → Bool
  | [] => true
  | v :: rest => wfV v && wfList rest

end

/-- Dot product of two coordinate lists (`numpy` row product-sum). -/
def dot (x y : List ℚ) : ℚ :=
  (List.zipWith (fun a b => a * b) x y).sum

/-- Entry (i, j) of the Gram matrix of the embedding rows.
`sklearn.metrics.pairwise.cosine_similarity` divides each row by its L2 norm
before taking dot products; the pipeline's embeddings are requested
unit-normalized (`normalize_embeddings=True`), under which that normalization
is the identity, so the similarity matrix is the Gram matrix.  Theorems about
similarity values carry the unit-row hypothesis explicitly. -/
def gram (X : List (List ℚ)) (i j : Nat) : ℚ :=
  dot (X.getD i []) (X.getD j [])

/-- The full n x n cosine-similarity matrix (`cosine_similarity(embeddings)`). -/
def cosine_similarity (X : List (List ℚ)) : List (List ℚ) :=
  (List.range X.length).map (fun i => (List.range X.length).map (fun j => gram X i j))

/-- Round-half-to-even to an integer (Python `round`'s tie rule), on exact
rationals. -/
def roundHalfEven (q : ℚ) : Int :=
  if q - ⌊q⌋ < 1 / 2 then ⌊q⌋
  else if (1 : ℚ) / 2 < q - ⌊q⌋ then ⌊q⌋ + 1
  else if ⌊q⌋ % 2 = 0 then ⌊q⌋ else ⌊q⌋ + 1

/-- `round(x, 3)`: round to 3 decimal places, ties to even. -/
def round3 (q : ℚ) : ℚ :=
  (roundHalfEven (q * 1000) : ℚ) / 1000

/-- Insert into a sorted list, before the first element whose key is not
smaller: the stable-ascending insertion step (numpy's small-array sort is
insertion sort, which is stable). -/
def insertAsc {α β : Type} [LinearOrder β] (key : α → β) (p : α) : List α → List α
  | [] => [p]
  | q :: rest => if key p ≤ key q then p :: q :: rest else q :: insertAsc key p rest

/-- Stable ascending insertion sort by key. -/
def isortAsc {α β : Type} [LinearOrder β] (key : α → β) : List α → List α
  | [] => []
  | p :: rest => insertAsc key p (isortAsc key rest)

/-- `Series.sort_values(ascending=False)` as pandas implements it
(`nargsort`): a stable ascending argsort whose result is then reversed —
so ties end up in reversed original order, not original order. -/
def pandasSortDesc {α β : Type} [LinearOrder β] (key : α → β) (l : List α) : List α :=
  (isortAsc key l).reverse

/-- Stable descending insertion: before the first element whose key is not
larger, so that ties keep original order under a descending sort.  This is
the sort the spec's words describe; it is used to compare against the pandas
behaviour. -/
def insertDescStable {α β : Type} [LinearOrder β] (key : α → β) (p : α) : List α → List α
  | [] => [p]
  | q :: rest => if key q ≤ key p then p :: q :: rest else q :: insertDescStable key p rest

/-- Stable descending insertion sort by key (spec-side tie rule). -/
def isortDescStable {α β : Type} [LinearOrder β] (key : α → β) : List α → List α
  | [] => []
  | p :: rest => insertDescStable key p (isortDescStable key rest)

/-- Strict lexicographic order on list elements by (key, position): the order
a stable ascending sort by key produces when positions are the original
indices. -/
def lexLt {α β : Type} [LinearOrder β] (key : α → β) (pos : α → Nat) (a b : α) : Prop :=
  key a < key b ∨ (key a = key b ∧ pos a < pos b)

/-- Row i of the similarity frame with its self column dropped:
`sim_df.loc[rule].drop(rule)` removes the entries whose *label* equals the
rule's own name (all of them — exactly the self entry when rulenames are
unique).  Entries keep their original column position j. -/
def simRowDropSelf (names : List String) (X : List (List ℚ)) (i : Nat) : List (Nat × ℚ) :=
  ((List.range names.length).map (fun j => (j, gram X i j))).filter
    (fun p => !(names.getD p.1 "" == names.getD i ""))

/-- The neighbor rows contributed by rule i:
`.sort_values(ascending=False).head(top_k)` then
`{"rule": ..., "similar_rule": other, "similarity": round(score, 3)}`. -/
def neighbor_rows (names : List String) (X : List (List ℚ)) (top_k i : Nat) :
    List (String × String × ℚ) :=
  ((pandasSortDesc (fun p => p.2) (simRowDropSelf names X i)).take top_k).map
    (fun p => (names.getD i "", names.getD p.1 "", round3 p.2))

/-- `compute_similarity_report` (lines 31-39): the similarity matrix and the
neighbor table, rules visited in original order. -/
def compute_similarity_report (names : List String) (X : List (List ℚ)) (top_k : Nat) :
    List (List ℚ) × List (String × String × ℚ) :=
  (cosine_similarity X, (List.range names.length).flatMap (neighbor_rows names X top_k))

/-- The neighbor rows as the spec describes them: descending sort with ties
broken by *stable original order*. -/
def spec_neighbor_rows (names : List String) (X : List (List ℚ)) (top_k i : Nat) :
    List (String × String × ℚ) :=
  ((isortDescStable (fun p => p.2) (simRowDropSelf names X i)).take top_k).map
    (fun p => (names.getD i "", names.getD p.1 "", round3 p.2))

/-- The claim's tie rule as a predicate on the neighbor table: within one
rule's rows, equal reported similarity forces the earlier entry to name the
rule that occurs earlier in the original row order. -/
def stableTiesOk (names : List String) (table : List (String × String × ℚ)) : Prop :=
  table.Pairwise (fun a b => a.1 = b.1 → a.2.2 = b.2.2 →
    names.indexOf a.2.1 < names.indexOf b.2.1)

/-- DBSCAN neighborhood radius (`eps=0.25`). -/
def dbEps : ℚ := 1 / 4

/-- i and j are within eps in cosine distance (`metric="cosine"`, radius
queries are inclusive). -/
def nbr (X : List (List ℚ)) (i j : Nat) : Bool :=
  decide (1 - gram X i j ≤ dbEps)

/-- i is a core point: at least `min_samples` points (itself included) in its
eps-neighborhood. -/
def isCore (X : List (List ℚ)) (ms i : Nat) : Bool :=
  decide (ms ≤ ((List.range X.length).filter (fun j => nbr X i j)).length)

/-- Density reachability: j is reachable from i through a chain of
eps-neighbor steps whose interior points are core points, in at most `fuel`
steps. -/
def reachF (X : List (List ℚ)) (ms : Nat) : Nat → Nat → Nat → Bool
  | 0, i, j => i == j
  | fuel + 1, i, j =>
    i == j || (isCore X ms i &&
      (List.range X.length).any (fun m => nbr X i m && reachF X ms fuel m j))

/-- Smallest index below n satisfying p. -/
def scanFirst (p : Nat → Bool) : Nat → Option Nat
  | 0 => none
  | n + 1 =>
    match scanFirst p n with
    | some m => some m
    | none => if p n then some n else none

/-- The representative of i's cluster: the smallest index that reaches i.
DBSCAN discovers clusters by scanning points in index order, so a cluster is
discovered at its smallest member. -/
def rep (X : List (List ℚ)) (ms i : Nat) : Nat :=
  (scanFirst (fun m => reachF X ms X.length m i) X.length).getD i

/-- The DBSCAN label of point i: core points get their cluster's discovery
rank (the position of their representative among core representatives in scan
order); non-core points are marked -1.  Border-point attachment is not
modelled because with `min_samples=1` every point is core. -/
def labelZ (X : List (List ℚ)) (ms i : Nat) : Int :=
  if isCore X ms i then
    (((((List.range X.length).filter (fun j => isCore X ms j)).map
      (rep X ms)).eraseDups).indexOf (rep X ms i) : Nat)
  else -1

/-- `DBSCAN(eps=0.25, min_samples=ms, metric="cosine").fit_predict(X)`. -/
def dbscan_labels (X : List (List ℚ)) (ms : Nat) : List Int :=
  (List.range X.length).map (labelZ X ms)

/-- A word character for the CountVectorizer token pattern `\b\w\w+\b`
(ASCII letters, digits, underscore; the development restricts `\w` to
ASCII). -/
def isWordChar (c : Char) : Bool :=
  c.isAlphanum || c = '_'

/-- Maximal runs of word characters (`acc` holds the current run reversed). -/
def wordRuns (acc : List Char) : List Char → List (List Char)
  | [] => if acc.isEmpty then [] else [acc.reverse]
  | c :: rest =>
    if isWordChar c then wordRuns (c :: acc) rest
    else if acc.isEmpty then wordRuns [] rest
    else acc.reverse :: wordRuns [] rest

/-- CountVectorizer tokenization: lowercase (character-wise, as `str.lower`
does), then the maximal word-character runs of length at least 2. -/
def tokenize (s : String) : List String :=
  ((wordRuns [] (s.toList.map Char.toLower)).filter (fun r => 2 ≤ r.length)).map
    (fun r => String.mk r)

/-- The sklearn English stop-word list (`ENGLISH_STOP_WORDS`, the Glasgow IR
list), used by `CountVectorizer(stop_words="english")`. -/
def english_stop_words : List String :=
  ["a", "about", "above", "across", "after", "afterwards", "again", "against",
   "all", "almost", "alone", "along", "already", "also", "although", "always",
   "am", "among", "amongst", "amoungst", "amount", "an", "and", "another",
   "any", "anyhow", "anyone", "anything", "anyway", "anywhere", "are",
   "around", "as", "at", "back", "be", "became", "because", "become",
   "becomes", "becoming", "been", "before", "beforehand", "behind", "being",
   "below", "beside", "besides", "between", "beyond", "bill", "both",
   "bottom", "but", "by", "call", "can", "cannot", "cant", "co", "con",
   "could", "couldnt", "cry", "de", "describe", "detail", "do", "done",
   "down", "due", "during", "each", "eg", "eight", "either", "eleven",
   "else", "elsewhere", "empty", "enough", "etc", "even", "ever", "every",
   "everyone", "everything", "everywhere", "except", "few", "fifteen",
   "fifty", "fill", "find", "fire", "first", "five", "for", "former",
   "formerly", "forty", "found", "four", "from", "front", "full", "further",
   "get", "give", "go", "had", "has", "hasnt", "have", "he", "hence", "her",
   "here", "hereafter", "hereby", "herein", "hereupon", "hers", "herself",
   "him", "himself", "his", "how", "however", "hundred", "i", "ie", "if",
   "in", "inc", "indeed", "interest", "into", "is", "it", "its", "itself",
   "keep", "last", "latter", "latterly", "least", "less", "ltd", "made",
   "many", "may", "me", "meanwhile", "might", "mill", "mine", "more",
   "moreover", "most", "mostly", "move", "much", "must", "my", "myself",
   "name", "namely", "neither", "never", "nevertheless", "next", "nine",
   "no", "nobody", "none", "noone", "nor", "not", "nothing", "now",
   "nowhere", "of", "off", "often", "on", "once", "one", "only", "onto",
   "or", "other", "others", "otherwise", "our", "ours", "ourselves", "out",
   "over", "own", "part", "per", "perhaps", "please", "put", "rather", "re",
   "same", "see", "seem", "seemed", "seeming", "seems", "serious", "several",
   "she", "should", "show", "side", "since", "sincere", "six", "sixty", "so",
   "some", "somehow", "someone", "something", "sometime", "sometimes",
   "somewhere", "still", "such", "system", "take", "ten", "than", "that",
   "the", "their", "them", "themselves", "then", "thence", "there",
   "thereafter", "thereby", "therefore", "therein", "thereupon", "these",
   "they", "thick", "thin", "third", "this", "those", "though", "three",
   "through", "throughout", "thru", "thus", "to", "together", "too", "top",
   "toward", "towards", "twelve", "twenty", "two", "un", "under", "until",
   "up", "upon", "us", "very", "via", "was", "we", "well", "were", "what",
   "whatever", "when", "whence", "whenever", "where", "whereafter",
   "whereas", "whereby", "wherein", "whereupon", "wherever", "whether",
   "which", "while", "whither", "who", "whoever", "whole", "whom", "whose",
   "why", "will", "with", "within", "without", "would", "yet", "you",
   "your", "yours", "yourself", "yourselves"]

/-- `CountVectorizer(stop_words="english").fit`: the vocabulary is the sorted
list of distinct non-stop tokens over all documents. -/
def vocabulary (docs : List String) : List String :=
  isortAsc id (((docs.flatMap tokenize).filter
    (fun t => !(english_stop_words.contains t))).eraseDups)

/-- The texts of a cluster's members
(`df[df["cluster_id"] == cid]["text_rule"].tolist()`). -/
def cluster_subset (texts : List String) (labels : List Int) (cid : Int) : List String :=
  ((texts.zip labels).filter (fun p => p.2 == cid)).map (fun p => p.1)

/-- Per-feature summed token counts over a cluster's members
(`vectorizer.transform(subset).sum(axis=0)` flattened). -/
def cluster_counts (texts : List String) (labels : List Int) (cid : Int) : List Nat :=
  (vocabulary texts).map (fun t =>
    ((cluster_subset texts labels cid).map (fun d => (tokenize d).count t)).sum)

/-- The chosen (feature index, count) pairs: `counts.argsort()[::-1][:top_n]`,
numpy's stable ascending argsort reversed, first three. -/
def top_idx (texts : List String) (labels : List Int) (cid : Int) : List (Nat × Nat) :=
  (pandasSortDesc (fun p => p.2) (cluster_counts texts labels cid).enum).take 3

/-- `top_tokens` (lines 50-57): empty member set gives the empty label;
otherwise the feature names of the chosen indices joined with `", "`. -/
def top_tokens (texts : List String) (labels : List Int) (cid : Int) : String :=
  if (cluster_subset texts labels cid).isEmpty then ""
  else
    String.intercalate ", " ((top_idx texts labels cid).map
      (fun p => (vocabulary texts).getD p.1 ""))

/-- `top_tokens` as the spec describes it: ties among equal counts broken by
the vectorizer's feature order (alphabetical), i.e. a stable descending
sort. -/
def spec_top_tokens (texts : List String) (labels : List Int) (cid : Int) : String :=
  if (cluster_subset texts labels cid).isEmpty then ""
  else
    String.intercalate ", "
      (((isortDescStable (fun p => p.2) (cluster_counts texts labels cid).enum).take 3).map
        (fun p => (vocabulary texts).getD p.1 ""))

/-- A dataframe cell: a `rule_json` entry, a text entry, or an integer
entry. -/
inductive Cell where
  | rin (r : RuleInput)
  | txt (s : String)
  | int (z : Int)

/-- A dataframe, as its columns in order: name and cell list (rows by
position). -/
abbrev DF := List (String × List Cell)

/-- Column lookup by name. -/
def getCol (df : DF) (name : String) : Option (List Cell) :=
  (df.find? (fun c => c.1 == name)).map (fun c => c.2)

/-- Column values, defaulting to the empty column. -/
def colVals (df : DF) (name : String) : List Cell :=
  (getCol df name).getD []

/-- Pandas column assignment `df[name] = vals`: replace the column in place if
it exists, else append it as the last column. -/
def setCol : DF → String → List Cell → DF
  | [], name, vals => [(name, vals)]
  | (n, v) :: rest, name, vals =>
    if n = name then (n, vals) :: rest else (n, v) :: setCol rest name vals

/-- `flatten_rule` applied to a cell, as `df["rule_json"].apply(flatten_rule)`
does: strings go through the JSON-parse fallback, structured values are
flattened directly, bare integers print as themselves. -/
def flattenCell : Cell → String
  | .rin r => flatten_rule r
  | .txt s => flatten_rule (.str s)
  | .int z => jflat (.num z)

/-- Read a text cell back (the `text_rule` column always holds text). -/
def textOfCell : Cell → String
  | .txt s => s
  | .rin (.str s) => s
  | _ => ""

/-- `compute_embeddings` (lines 25-29): adds the `text_rule` column (the
flattened `rule_json` column) and encodes those texts.  The sentence
transformer is an external resource, passed as the function `model`. -/
def compute_embeddings (model : List String → List (List ℚ)) (df : DF) :
    DF × List (List ℚ) :=
  let texts := (colVals df "rule_json").map flattenCell
  (setCol df "text_rule" (texts.map Cell.txt), model texts)

/-- Dict lookup in the cluster-label mapping (`df["cluster_id"].map(...)`). -/
def lookupLabel (m : List (Int × String)) (l : Int) : String :=
  ((m.find? (fun p => p.1 == l)).map (fun p => p.2)).getD ""

/-- `cluster_rules` (lines 41-61): DBSCAN labels into `cluster_id`, then the
`top_tokens` label of each cluster id (ids visited sorted ascending, as
`sorted(df["cluster_id"].unique())`) into `cluster_label`. -/
def cluster_rules (df : DF) (X : List (List ℚ)) : DF × List (Int × String) :=
  let labels := dbscan_labels X 1
  let texts := (colVals df "text_rule").map textOfCell
  let cids := isortAsc id labels.eraseDups
  let lmap := cids.map (fun cid => (cid, top_tokens texts labels cid))
  let df1 := setCol df "cluster_id" (labels.map Cell.int)
  let df2 := setCol df1 "cluster_label"
    (labels.map (fun l => Cell.txt (lookupLabel lmap l)))
  (df2, lmap)

/-- The duplicate filter of `app.py` lines 70-71:
`report_df[report_df["similarity"] >= threshold].sort_values(by="similarity",
ascending=False)`. -/
def duplicates_df (threshold : ℚ) (report : List (String × String × ℚ)) :
    List (String × String × ℚ) :=
  pandasSortDesc (fun r => r.2.2) (report.filter (fun r => decide (threshold ≤ r.2.2)))

/-- Contexts in which an encoded value can be followed in a JSON document:
end of input, or a separator/closer.  Number parsing is maximal-munch, so the
round-trip lemma tracks that the following character never extends a
numeral. -/
def numDelim (rest : List Char) : Prop :=
  rest = [] ∨ ∃ c cs, rest = c :: cs ∧ (c = ',' ∨ c = '\x7d' ∨ c = ']')

/-! ## Lemmas about joining with single spaces -/

theorem intercalate_go_append (x y s : String) (l : List String) :
    String.intercalate.go (x ++ y) s l = x ++ String.intercalate.go y s l := by
  induction l generalizing y with
  | nil => simp [String.intercalate.go]
  | cons b bs ih =>
    show String.intercalate.go (x ++ y ++ s ++ b) s bs = _
    have h : x ++ y ++ s ++ b = x ++ (y ++ s ++ b) := by
      simp [String.append_assoc]
    rw [h, ih (y ++ s ++ b)]
    rfl

theorem intercalate_singleton (s a : String) :
    String.intercalate s [a] = a :=
  rfl

theorem intercalate_cons_cons (s a b : String) (l : List String) :
    String.intercalate s (a :: b :: l) = a ++ s ++ String.intercalate s (b :: l) := by
  show String.intercalate.go (a ++ s ++ b) s l = _
  rw [intercalate_go_append (a ++ s) b s l]
  rfl

/-! ## C4: flatten_rule is the described structural recursion on structured
input -/

/-- C4: on structured (non-string) rule bodies, `flatten_rule` maps an object
to its `"key:flatten(value)"` pairs joined by a single space in key order, an
array to its flattened elements joined by a single space in order, and a
scalar to its Python string representation.  Being a pure function of the
structure, identical structural input (including key order) always yields the
identical output text, and no whitespace beyond the explicit single-space
joins is introduced. -/
theorem C4_flatten_structural_recursion :
    (flatten_rule (.val (.obj [])) = "") ∧
    (∀ k v, flatten_rule (.val (.obj [(k, v)])) = k ++ ":" ++ jflat v) ∧
    (∀ k v kv kvs, flatten_rule (.val (.obj ((k, v) :: kv :: kvs))) =
      k ++ ":" ++ jflat v ++ " " ++ flatten_rule (.val (.obj (kv :: kvs)))) ∧
    (flatten_rule (.val (.arr [])) = "") ∧
    (∀ v, flatten_rule (.val (.arr [v])) = jflat v) ∧
    (∀ v x xs, flatten_rule (.val (.arr (v :: x :: xs))) =
      jflat v ++ " " ++ flatten_rule (.val (.arr (x :: xs)))) ∧
    (∀ s, flatten_rule (.val (.str s)) = s) ∧
    (∀ n, flatten_rule (.val (.num n)) = toString n) ∧
    (flatten_rule (.val (.bool true)) = "True") ∧
    (flatten_rule (.val (.bool false)) = "False") ∧
    (flatten_rule (.val .null) = "None") := by
  refine ⟨rfl, fun k v => rfl, ?_, rfl, fun v => rfl, ?_,
    fun s => rfl, fun n => rfl, rfl, rfl, rfl⟩
  · intro k v kv kvs
    show String.intercalate " " (jflatPairs ((k, v) :: kv :: kvs)) = _
    rw [jflatPairs, jflatPairs, intercalate_cons_cons]
    rfl
  · intro v x xs
    show String.intercalate " " (jflatList (v :: x :: xs)) = _
    rw [jflatList, jflatList, intercalate_cons_cons]
    rfl

/-! ## C5: flatten_rule never raises; unparseable strings are returned
unchanged -/

/-- C5: `flatten_rule` is a total function (it is defined by a structurally
total recursion, so it never raises); on a string input it attempts a JSON
parse, and when the parse fails the input string itself is returned
unchanged — in particular for the literal string `"{bad json"`. -/
theorem C5_flatten_parse_fallback :
    (∀ s : String, loads s = none → flatten_rule (.str s) = s) ∧
    flatten_rule (.str "\x7bbad json") = "\x7bbad json" := by
  constructor
  · intro s h
    simp [flatten_rule, h]
  · rfl

/-- Witness for C5 at the concrete input of Scenario B. -/
theorem C5_flatten_parse_fallback_witness :
    flatten_rule (.str "\x7bbad json") = "\x7bbad json" :=
  C5_flatten_parse_fallback.1 "\x7bbad json" (by rfl)

/-! ## C10: nested strings are never parsed as JSON -/

/-- C10: `flatten_rule` attempts a JSON parse only on its top-level string
argument.  A string nested inside an object or array is rendered verbatim as
a scalar — even when that nested string is itself valid JSON. -/
theorem C10_nested_strings_verbatim :
    (∀ s, jflat (.str s) = s) ∧
    (∀ k s, flatten_rule (.val (.obj [(k, .str s)])) = k ++ ":" ++ s) ∧
    (∀ s v, loads s = some v → flatten_rule (.val (.arr [.str s])) = s) := by
  refine ⟨fun s => rfl, ?_, ?_⟩
  · intro k s
    rfl
  · intro s v _
    rfl

/-- Witness for C10: the nested string `"[1, 2]"` is itself valid JSON, yet
is rendered verbatim. -/
theorem C10_nested_strings_verbatim_witness :
    flatten_rule (.val (.arr [.str "[1, 2]"])) = "[1, 2]" :=
  C10_nested_strings_verbatim.2.2 "[1, 2]" (.arr [.num 1, .num 2]) (by rfl)

/-! ## C3: loads-dumps round trip — character-level lemmas -/

theorem toNat_ofNat_small (n : Nat) (h : n < 55296) : (Char.ofNat n).toNat = n := by
  have hv : n.isValidChar := Or.inl (by omega)
  simp [Char.ofNat, hv, Char.toNat, Char.ofNatAux, UInt32.ofNat', UInt32.toNat]

theorem skipWs_cons_not_ws (c : Char) (cs : List Char) (h : isWs c = false) :
    skipWs (c :: cs) = c :: cs := by
  simp [skipWs, h]

theorem skipWs_cons_ws (c : Char) (cs : List Char) (h : isWs c = true) :
    skipWs (c :: cs) = skipWs cs := by
  simp [skipWs, h]

theorem hexVal_hexDigitChar (d : Nat) (h : d < 16) :
    hexVal? (hexDigitChar d) = some d := by
  interval_cases d <;> decide

theorem parseHex4_hex4 (n : Nat) (h : n < 65536) (rest : List Char) :
    parseHex4 (hex4 n ++ rest) = some (n, rest) := by
  have h1 := hexVal_hexDigitChar (n / 4096 % 16) (by omega)
  have h2 := hexVal_hexDigitChar (n / 256 % 16) (by omega)
  have h3 := hexVal_hexDigitChar (n / 16 % 16) (by omega)
  have h4 := hexVal_hexDigitChar (n % 16) (by omega)
  simp only [hex4, List.cons_append, List.nil_append, parseHex4, h1, h2, h3, h4]
  have : 4096 * (n / 4096 % 16) + 256 * (n / 256 % 16) + 16 * (n / 16 % 16) + n % 16 = n := by
    omega
  rw [this]

theorem digitChar_toNat (d : Nat) (h : d < 10) : (digitChar d).toNat = 48 + d := by
  unfold digitChar
  exact toNat_ofNat_small _ (by omega)

theorem digitChar_facts (d : Nat) (h : d < 10) :
    (digitChar d).isDigit = true ∧ isWs (digitChar d) = false ∧
    digitChar d ≠ '"' ∧ digitChar d ≠ '\x7b' ∧ digitChar d ≠ '[' ∧
    digitChar d ≠ 't' ∧ digitChar d ≠ 'f' ∧ digitChar d ≠ 'n' ∧
    digitChar d ≠ '-' ∧ digitChar d ≠ ']' ∧ digitChar d ≠ '\x7d' := by
  interval_cases d <;> decide

theorem natChars_eq (n : Nat) :
    natChars n = if n < 10 then [digitChar n]
      else natChars (n / 10) ++ [digitChar (n % 10)] := by
  rw [natChars]

theorem natChars_head (n : Nat) :
    ∃ d tail, d < 10 ∧ natChars n = digitChar d :: tail := by
  induction n using Nat.strong_induction_on with
  | _ n ih =>
    rw [natChars_eq]
    split
    · exact ⟨n, [], by omega, rfl⟩
    · obtain ⟨d, tail, hd, heq⟩ := ih (n / 10) (Nat.div_lt_self (by omega) (by omega))
      exact ⟨d, tail ++ [digitChar (n % 10)], hd, by rw [heq]; rfl⟩

theorem natChars_all_digits (n : Nat) : ∀ c ∈ natChars n, c.isDigit = true := by
  induction n using Nat.strong_induction_on with
  | _ n ih =>
    rw [natChars_eq]
    split
    · intro c hc
      simp only [List.mem_singleton] at hc
      subst hc
      exact (digitChar_facts n (by omega)).1
    · intro c hc
      rw [List.mem_append, List.mem_singleton] at hc
      rcases hc with hc | hc
      · exact ih (n / 10) (Nat.div_lt_self (by omega) (by omega)) c hc
      · subst hc
        exact (digitChar_facts (n % 10) (by omega)).1

theorem digitsVal_append_digit (ds : List Char) (c : Char) :
    digitsVal (ds ++ [c]) = digitsVal ds * 10 + (c.toNat - 48) := by
  simp [digitsVal, List.foldl_append]

theorem digitsVal_natChars (n : Nat) : digitsVal (natChars n) = n := by
  induction n using Nat.strong_induction_on with
  | _ n ih =>
    rw [natChars_eq]
    split
    · simp [digitsVal, digitChar_toNat n (by omega)]
    · rw [digitsVal_append_digit, ih (n / 10) (Nat.div_lt_self (by omega) (by omega)),
        digitChar_toNat (n % 10) (by omega)]
      omega

theorem numDelim_head (c : Char) (cs : List Char) (h : numDelim (c :: cs)) :
    c.isDigit = false ∧ c ≠ '.' ∧ c ≠ 'e' ∧ c ≠ 'E' := by
  rcases h with h | ⟨d, ds, hd, hin⟩
  · exact (List.cons_ne_nil c cs h).elim
  · have hdc : c = d := by injection hd
    subst hdc
    rcases hin with rfl | rfl | rfl <;> exact ⟨by decide, by decide, by decide, by decide⟩

theorem parseNatTok_natChars (n : Nat) (rest : List Char) (h : numDelim rest) :
    parseNatTok (natChars n ++ rest) = some (n, rest) := by
  have htake : (natChars n ++ rest).takeWhile Char.isDigit = natChars n ++ rest.takeWhile Char.isDigit :=
    List.takeWhile_append_of_pos (natChars_all_digits n)
  have hdrop : (natChars n ++ rest).dropWhile Char.isDigit = rest.dropWhile Char.isDigit :=
    List.dropWhile_append_of_pos (natChars_all_digits n)
  have hnn : natChars n ≠ [] := by
    obtain ⟨d, tval, hd, heq⟩ := natChars_head n
    simp [heq]
  have hnem : ¬((natChars n).isEmpty = true) := by
    simp [List.isEmpty_iff]
    exact hnn
  rcases h with hnil | ⟨c, cs, hc, hin⟩
  · subst hnil
    simp only [List.takeWhile_nil, List.dropWhile_nil, List.append_nil] at htake hdrop
    simp only [parseNatTok, List.append_nil, htake, hdrop]
    rw [if_neg hnem, digitsVal_natChars n]
  · subst hc
    obtain ⟨hdig, hdot, he, hE⟩ := numDelim_head c cs (Or.inr ⟨c, cs, rfl, hin⟩)
    have h1 : (c :: cs).takeWhile Char.isDigit = [] := by
      simp [List.takeWhile, hdig]
    have h2 : (c :: cs).dropWhile Char.isDigit = c :: cs := by
      simp [List.dropWhile, hdig]
    rw [h1] at htake
    rw [h2] at hdrop
    simp only [parseNatTok, htake, hdrop, List.append_nil]
    rw [if_neg hnem, if_neg (by simp [hdot, he, hE]), digitsVal_natChars n]

theorem parseIntTok_intChars (n : Int) (rest : List Char) (h : numDelim rest) :
    parseIntTok (intChars n ++ rest) = some (n, rest) := by
  unfold intChars
  split
  · rename_i hneg
    rw [List.cons_append]
    have hpn := parseNatTok_natChars (-n).toNat rest h
    simp [parseIntTok, hpn]
    omega
  · rename_i hpos
    obtain ⟨d, tail, hd, heq⟩ := natChars_head n.toNat
    rw [heq, List.cons_append]
    simp only [parseIntTok, if_neg (digitChar_facts d hd).2.2.2.2.2.2.2.2.1]
    rw [← List.cons_append, ← heq, parseNatTok_natChars _ _ h]
    simp
    omega

theorem escapeChar_length_pos (c : Char) : 1 ≤ (escapeChar c).length := by
  unfold escapeChar
  split_ifs <;> simp [hex4]

theorem parseStrF_escapeChar (fuel : Nat) (c : Char) (tail : List Char) :
    parseStrF (fuel + 1) (escapeChar c ++ tail) =
      (fun r => (c :: r.1, r.2)) <$> parseStrF fuel tail := by
  unfold escapeChar
  split_ifs with h1 h2 h3 h4 h5 h6 h7 h8
  · subst h1; rfl
  · subst h2; rfl
  · subst h3; rfl
  · subst h4; rfl
  · subst h5; rfl
  · have hc : Char.ofNat 8 = c := by rw [← h6, Char.ofNat_toNat]
    rw [← hc]
    rfl
  · have hc : Char.ofNat 12 = c := by rw [← h7, Char.ofNat_toNat]
    rw [← hc]
    rfl
  · have hx := parseHex4_hex4 c.toNat (by omega) tail
    have hs1 : ¬(55296 ≤ c.toNat ∧ c.toNat < 56320) := by omega
    have hs2 : ¬(56320 ≤ c.toNat ∧ c.toNat < 57344) := by omega
    simp only [List.cons_append, List.append_assoc]
    simp [parseStrF, shortEscape?, hx, hs1, hs2, Char.ofNat_toNat]
  · simp [parseStrF, h1, h2, h8]

theorem parseStrF_escChars (cs : List Char) : ∀ fuel tail, (escChars cs).length < fuel →
    parseStrF fuel (escChars cs ++ '"' :: tail) = some (cs, tail) := by
  induction cs with
  | nil =>
    intro fuel tail h
    obtain ⟨f, rfl⟩ : ∃ f, fuel = f + 1 := ⟨fuel - 1, by omega⟩
    rfl
  | cons c cs ih =>
    intro fuel tail h
    have hsplit : escChars (c :: cs) = escapeChar c ++ escChars cs := by
      simp [escChars]
    have hlen : 1 ≤ (escapeChar c).length := escapeChar_length_pos c
    rw [hsplit] at h ⊢
    rw [List.length_append] at h
    obtain ⟨f, rfl⟩ : ∃ f, fuel = f + 1 := ⟨fuel - 1, by omega⟩
    rw [List.append_assoc, parseStrF_escapeChar f c _, ih f tail (by omega)]
    rfl

theorem strMk_toList (s : String) : String.mk s.toList = s :=
  rfl

theorem strMk_data (s : String) : String.mk s.data = s :=
  rfl

/-! ## Head shapes of encoded values -/

theorem encStr_head (s : String) :
    encStr s = '"' :: (escChars s.toList ++ ['"']) :=
  rfl

theorem encPair_head (kv : String × JsonVal) :
    encPair kv = '"' :: (escChars kv.1.toList ++ ('"' :: (':' :: ' ' :: encV kv.2))) := by
  obtain ⟨k, v⟩ := kv
  simp [encPair, encStr]

theorem intChars_head (n : Int) :
    ∃ c cs, intChars n = c :: cs ∧ isWs c = false ∧ c ≠ '"' ∧ c ≠ '\x7b' ∧
      c ≠ '[' ∧ c ≠ 't' ∧ c ≠ 'f' ∧ c ≠ 'n' ∧ c ≠ ']' ∧ c ≠ '\x7d' ∧
      (c = '-' ∨ c.isDigit = true) := by
  unfold intChars
  split
  · exact ⟨'-', _, rfl, by decide, by decide, by decide, by decide, by decide,
      by decide, by decide, by decide, by decide, Or.inl rfl⟩
  · obtain ⟨d, tail, hd, heq⟩ := natChars_head n.toNat
    obtain ⟨hdig, hws, hq, hb, hk, ht, hf, hn, hm, hrb, hcb⟩ := digitChar_facts d hd
    exact ⟨digitChar d, tail, heq, hws, hq, hb, hk, ht, hf, hn, hrb, hcb, Or.inr hdig⟩

theorem encV_head (v : JsonVal) :
    ∃ c cs, encV v = c :: cs ∧ isWs c = false ∧ c ≠ ']' ∧ c ≠ '\x7d' := by
  cases v with
  | obj kvs =>
    cases kvs with
    | nil => exact ⟨'\x7b', ['\x7d'], rfl, by decide, by decide, by decide⟩
    | cons kv kvs => exact ⟨'\x7b', _, rfl, by decide, by decide, by decide⟩
  | arr xs =>
    cases xs with
    | nil => exact ⟨'[', [']'], rfl, by decide, by decide, by decide⟩
    | cons x xs => exact ⟨'[', _, rfl, by decide, by decide, by decide⟩
  | str s => exact ⟨'"', _, encStr_head s, by decide, by decide, by decide⟩
  | num n =>
    obtain ⟨c, cs, heq, hws, _, _, _, _, _, _, hrb, hcb, _⟩ := intChars_head n
    exact ⟨c, cs, heq, hws, hrb, hcb⟩
  | bool b =>
    cases b
    · exact ⟨'f', ['a', 'l', 's', 'e'], rfl, by decide, by decide, by decide⟩
    · exact ⟨'t', ['r', 'u', 'e'], rfl, by decide, by decide, by decide⟩
  | null => exact ⟨'n', ['u', 'l', 'l'], rfl, by decide, by decide, by decide⟩

theorem encV_length_pos (v : JsonVal) : 1 ≤ (encV v).length := by
  obtain ⟨c, cs, heq, -⟩ := encV_head v
  simp [heq]

theorem skipWs_encV (v : JsonVal) (t : List Char) :
    skipWs (encV v ++ t) = encV v ++ t := by
  obtain ⟨c, cs, heq, hws, -⟩ := encV_head v
  rw [heq, List.cons_append, skipWs_cons_not_ws c _ hws]

/-! ## Python dict insertion on fresh keys -/

theorem insertPair_append (acc : List (String × JsonVal)) (k : String) (v : JsonVal)
    (h : ∀ p ∈ acc, p.1 ≠ k) : insertPair acc k v = acc ++ [(k, v)] := by
  induction acc with
  | nil => rfl
  | cons q acc ih =>
    obtain ⟨k', v'⟩ := q
    have hk : k' ≠ k := h (k', v') (List.mem_cons_self _ _)
    simp only [insertPair, if_neg hk, List.cons_append]
    rw [ih (fun p hp => h p (List.mem_cons_of_mem _ hp))]

theorem wfPairs_nodup (kvs : List (String × JsonVal)) (h : wfPairs kvs = true) :
    (kvs.map Prod.fst).Nodup := by
  induction kvs with
  | nil => simp
  | cons kv kvs ih =>
    obtain ⟨k, v⟩ := kv
    simp only [wfPairs, Bool.and_eq_true, Bool.not_eq_true'] at h
    obtain ⟨⟨hc, _⟩, hrest⟩ := h
    simp only [List.map_cons, List.nodup_cons]
    refine ⟨?_, ih hrest⟩
    intro hmem
    rw [← List.elem_iff] at hmem
    rw [List.contains, hmem] at hc
    exact Bool.true_eq_false ▸ hc

/-! ## The parser-printer round trip -/

theorem parse_encV (fuel : Nat) :
    (∀ v rest, wfV v = true → (encV v).length < fuel → numDelim rest →
      parseValueF fuel (encV v ++ rest) = some (v, rest)) ∧
    (∀ kv kvs acc rest, wfPairs (kv :: kvs) = true →
      ((acc ++ kv :: kvs).map Prod.fst).Nodup →
      (encPair kv ++ encPairsTail kvs).length < fuel →
      parseMembersF fuel acc (encPair kv ++ (encPairsTail kvs ++ '\x7d' :: rest)) =
        some (acc ++ kv :: kvs, rest)) ∧
    (∀ x xs acc rest, wfV x = true → wfList xs = true →
      (encV x ++ encElemsTail xs).length + 1 < fuel →
      parseElemsF fuel acc (encV x ++ (encElemsTail xs ++ ']' :: rest)) =
        some (acc ++ x :: xs, rest)) := by
  induction fuel with
  | zero =>
    exact ⟨fun v rest _ h _ => absurd h (by omega),
           fun kv kvs acc rest _ _ h => absurd h (by omega),
           fun x xs acc rest _ _ h => absurd h (by omega)⟩
  | succ fuel ih =>
    obtain ⟨ihP, ihQ, ihR⟩ := ih
    refine ⟨?_, ?_, ?_⟩
    · intro v rest hwf hlen hdelim
      cases v with
      | obj kvs =>
        cases kvs with
        | nil => simp [encV, parseValueF, skipWs, isWs]
        | cons kv kvs =>
          have hq : wfPairs (kv :: kvs) = true := by simpa [wfV] using hwf
          have hnd : ((([] : List (String × JsonVal)) ++ kv :: kvs).map Prod.fst).Nodup := by
            simpa using wfPairs_nodup _ hq
          have hlen' : (encPair kv ++ encPairsTail kvs).length < fuel := by
            simp only [encV, List.length_cons, List.length_append, List.length_nil] at hlen ⊢
            omega
          have hQ := ihQ kv kvs [] rest hq hnd hlen'
          rw [encPair_head kv] at hQ
          simp only [String.toList, List.nil_append, List.cons_append, List.append_assoc] at hQ
          simp only [encV, List.cons_append, List.append_assoc, List.nil_append]
          rw [encPair_head kv]
          simp only [String.toList, List.cons_append, List.append_assoc]
          simp [parseValueF, skipWs, isWs, hQ]
      | arr xs =>
        cases xs with
        | nil => simp [encV, parseValueF, skipWs, isWs]
        | cons x xs =>
          have hx : wfV x = true ∧ wfList xs = true := by
            simpa [wfV, wfList, Bool.and_eq_true] using hwf
          have hlen' : (encV x ++ encElemsTail xs).length + 1 < fuel := by
            simp only [encV, List.length_cons, List.length_append, List.length_nil] at hlen ⊢
            omega
          have hR := ihR x xs [] rest hx.1 hx.2 hlen'
          obtain ⟨c, cs, hceq, hws, hrb, hcb⟩ := encV_head x
          rw [hceq] at hR
          simp only [List.nil_append, List.cons_append, List.append_assoc] at hR
          simp only [encV, List.cons_append, List.append_assoc, List.nil_append]
          simp only [parseValueF]
          rw [skipWs_cons_not_ws '[' _ (by decide)]
          simp only [skipWs_encV x (encElemsTail xs ++ ']' :: rest)]
          simp [hceq, List.cons_append, hrb, hR]
      | str s =>
        have hps := parseStrF_escChars s.toList
          ((escChars s.toList ++ '"' :: rest).length + 1) rest
          (by simp [List.length_append]; omega)
        simp only [String.toList, List.length_append, List.length_cons] at hps
        simp only [encV, encStr_head, String.toList, List.cons_append, List.append_assoc,
          List.nil_append]
        simp [parseValueF, skipWs, isWs, hps, strMk_data]
      | num n =>
        obtain ⟨c, cs, heq, hws, hq, hb, hk, ht, hf, hn, hrb, hcb, hnum⟩ := intChars_head n
        have hpi := parseIntTok_intChars n rest hdelim
        have henc : encV (.num n) = intChars n := rfl
        rw [heq] at hpi
        rw [henc, heq]
        simp only [List.cons_append] at hpi ⊢
        simp only [parseValueF]
        rw [skipWs_cons_not_ws c _ hws]
        simp [hq, hb, hk, ht, hf, hn]
        exact ⟨hnum, hpi⟩
      | bool b =>
        cases b with
        | true => simp [encV, parseValueF, skipWs, isWs, List.take, List.drop]
        | false => simp [encV, parseValueF, skipWs, isWs, List.take, List.drop]
      | null => simp [encV, parseValueF, skipWs, isWs, List.take, List.drop]
    · intro kv kvs acc rest hwf hnd hlen
      obtain ⟨k, v⟩ := kv
      have hwf' : (List.map Prod.fst kvs).contains k = false ∧ wfV v = true ∧
          wfPairs kvs = true := by
        have := hwf
        simp only [wfPairs, Bool.and_eq_true, Bool.not_eq_true'] at this
        exact ⟨this.1.1, this.1.2, this.2⟩
      have hfresh : ∀ p ∈ acc, p.1 ≠ k := by
        intro p hp hpk
        have hmap : ((acc ++ (k, v) :: kvs).map Prod.fst) =
            acc.map Prod.fst ++ k :: kvs.map Prod.fst := by
          simp
        rw [hmap] at hnd
        rw [List.nodup_append] at hnd
        exact hnd.2.2 (List.mem_map_of_mem Prod.fst hp) (by simp [hpk])
      have hpos : 1 ≤ (encV v).length := encV_length_pos v
      cases kvs with
      | nil =>
        have hdel : numDelim (encPairsTail ([] : List (String × JsonVal)) ++ '\x7d' :: rest) :=
          Or.inr ⟨'\x7d', rest, rfl, Or.inr (Or.inl rfl)⟩
        have hlenv : (encV v).length < fuel := by
          simp only [encPair, encStr, encPairsTail, List.length_append, List.length_cons,
            List.length_nil] at hlen
          omega
        have hP := ihP v (encPairsTail ([] : List (String × JsonVal)) ++ '\x7d' :: rest)
          hwf'.2.1 hlenv hdel
        simp only [encPairsTail, List.nil_append] at hP ⊢
        rw [encPair_head (k, v)]
        have hkey := parseStrF_escChars k.toList
          ((escChars k.toList ++ '"' :: (':' :: ' ' :: (encV v ++ '\x7d' :: rest))).length + 1)
          (':' :: ' ' :: (encV v ++ '\x7d' :: rest))
          (by simp [List.length_append]; omega)
        simp at hkey
        simp [parseMembersF, hkey, skipWs, isWs, skipWs_encV, hP, strMk_data,
          insertPair_append acc k v hfresh]
      | cons kv' kvs' =>
        have hdel : numDelim (encPairsTail (kv' :: kvs') ++ '\x7d' :: rest) :=
          Or.inr ⟨',', _, rfl, Or.inl rfl⟩
        have hpos' : 1 ≤ (encPair kv').length := by
          rw [encPair_head kv']
          simp
        have hlenv : (encV v).length < fuel := by
          simp only [encPair, encStr, encPairsTail, List.length_append, List.length_cons,
            List.length_nil] at hlen
          omega
        have hlen' : (encPair kv' ++ encPairsTail kvs').length < fuel := by
          simp only [encPair, encStr, encPairsTail, List.length_append, List.length_cons,
            List.length_nil] at hlen ⊢
          omega
        have hP := ihP v (encPairsTail (kv' :: kvs') ++ '\x7d' :: rest) hwf'.2.1 hlenv hdel
        have hwfp' : wfPairs (kv' :: kvs') = true := hwf'.2.2
        have hnd' : (((acc ++ [(k, v)]) ++ kv' :: kvs').map Prod.fst).Nodup := by
          simpa [List.append_assoc] using hnd
        have hQ := ihQ kv' kvs' (acc ++ [(k, v)]) rest hwfp' hnd' hlen'
        have hkey := parseStrF_escChars k.toList
          ((escChars k.toList ++ '"' :: (':' :: ' ' :: (encV v ++
            (encPairsTail (kv' :: kvs') ++ '\x7d' :: rest)))).length + 1)
          (':' :: ' ' :: (encV v ++ (encPairsTail (kv' :: kvs') ++ '\x7d' :: rest)))
          (by simp [List.length_append]; omega)
        rw [encPair_head (k, v)]
        simp only [encPairsTail] at hkey hP ⊢
        rw [encPair_head kv'] at hkey hP hQ ⊢
        simp at hkey
        simp only [String.toList, List.cons_append, List.append_assoc] at hP hQ ⊢
        simp [parseMembersF, hkey, skipWs, isWs, skipWs_encV, hP, strMk_data,
          insertPair_append acc k v hfresh, hQ, List.append_assoc]
    · intro x xs acc rest hwx hwxs hlen
      cases xs with
      | nil =>
        have hdel : numDelim (encElemsTail ([] : List JsonVal) ++ ']' :: rest) :=
          Or.inr ⟨']', rest, rfl, Or.inr (Or.inr rfl)⟩
        have hlenx : (encV x).length < fuel := by
          simp only [encElemsTail, List.length_append, List.length_nil] at hlen
          omega
        have hP := ihP x (encElemsTail ([] : List JsonVal) ++ ']' :: rest) hwx hlenx hdel
        simp only [encElemsTail, List.nil_append] at hP ⊢
        simp only [parseElemsF]
        rw [hP]
        simp [skipWs, isWs]
      | cons x' xs' =>
        have hdel : numDelim (encElemsTail (x' :: xs') ++ ']' :: rest) :=
          Or.inr ⟨',', _, rfl, Or.inl rfl⟩
        have hposx : 1 ≤ (encV x).length := encV_length_pos x
        have hposx' : 1 ≤ (encV x').length := encV_length_pos x'
        have hlenx : (encV x).length < fuel := by
          simp only [encElemsTail, List.length_append, List.length_cons] at hlen
          omega
        have hlen' : (encV x' ++ encElemsTail xs').length + 1 < fuel := by
          simp only [encElemsTail, List.length_append, List.length_cons] at hlen ⊢
          omega
        have hx' : wfV x' = true ∧ wfList xs' = true := by
          simpa [wfList, Bool.and_eq_true] using hwxs
        have hP := ihP x (encElemsTail (x' :: xs') ++ ']' :: rest) hwx hlenx hdel
        have hR := ihR x' xs' (acc ++ [x]) rest hx'.1 hx'.2 hlen'
        simp only [encElemsTail, List.cons_append, List.append_assoc] at hP ⊢
        simp only [parseElemsF]
        rw [hP]
        simp [skipWs, isWs, skipWs_encV, hR, List.append_assoc]


theorem loads_dumps (v : JsonVal) (h : wfV v = true) : loads (dumps v) = some v := by
  have hp := (parse_encV ((encV v).length + 1)).1 v [] h (by omega) (Or.inl rfl)
  simp only [List.append_nil] at hp
  unfold loads dumps
  have hlen : (String.mk (encV v)).length = (encV v).length := rfl
  have htl : (String.mk (encV v)).toList = encV v := rfl
  rw [hlen, htl, hp]
  simp [skipWs]

/-! ## C3: round-trip canonicalization -/

/-- C3: `flatten_rule` applied to the JSON-encoded string of a value `V`
equals `flatten_rule` applied to the already-parsed value `V`.  The
well-formedness hypothesis states that `V` is an actual JSON value: every
object has pairwise-distinct keys (a parsed Python `dict` can never hold
duplicates). -/
theorem C3_flatten_roundtrip (v : JsonVal) (h : wfV v = true) :
    flatten_rule (.str (dumps v)) = flatten_rule (.val v) := by
  simp [flatten_rule, loads_dumps v h]

/-- Witness for C3 at a concrete nested value (the spec's Scenario A body
extended with an array, booleans, null, numbers and an escaped string). -/
theorem C3_flatten_roundtrip_witness :
    flatten_rule (.str (dumps (JsonVal.obj [("age", .str ">18"),
      ("k", .arr [.num 1, .num (-2), .bool true, .null, .str "a\nb\"c"])]))) =
    flatten_rule (.val (JsonVal.obj [("age", .str ">18"),
      ("k", .arr [.num 1, .num (-2), .bool true, .null, .str "a\nb\"c"])])) :=
  C3_flatten_roundtrip _ (by rfl)

/-! ## Sorting lemmas for the pandas sort model -/

theorem insertAsc_perm {α β : Type} [LinearOrder β] (key : α → β) (p : α) (l : List α) :
    (insertAsc key p l).Perm (p :: l) := by
  induction l with
  | nil => exact List.Perm.refl _
  | cons q rest ih =>
    simp only [insertAsc]
    split
    · exact List.Perm.refl _
    · exact (ih.cons q).trans (List.Perm.swap p q rest)

theorem isortAsc_perm {α β : Type} [LinearOrder β] (key : α → β) (l : List α) :
    (isortAsc key l).Perm l := by
  induction l with
  | nil => exact List.Perm.refl _
  | cons p rest ih => exact (insertAsc_perm key p (isortAsc key rest)).trans (ih.cons p)

theorem insertAsc_sorted {α β : Type} [LinearOrder β] (key : α → β) (p : α) (l : List α)
    (hl : l.Pairwise (fun a b => key a ≤ key b)) :
    (insertAsc key p l).Pairwise (fun a b => key a ≤ key b) := by
  induction l with
  | nil => simp [insertAsc]
  | cons q rest ih =>
    rw [List.pairwise_cons] at hl
    obtain ⟨hq, hrest⟩ := hl
    simp only [insertAsc]
    split
    · rename_i h
      rw [List.pairwise_cons]
      refine ⟨?_, ?_⟩
      · intro r hr
        rcases List.mem_cons.mp hr with rfl | hr
        · exact h
        · exact le_trans h (hq r hr)
      · rw [List.pairwise_cons]
        exact ⟨hq, hrest⟩
    · rename_i h
      rw [List.pairwise_cons]
      refine ⟨?_, ih hrest⟩
      intro r hr
      have hmem : r = p ∨ r ∈ rest := by
        have := (insertAsc_perm key p rest).mem_iff.mp hr
        simpa using this
      rcases hmem with rfl | hr2
      · exact le_of_lt (lt_of_not_le h)
      · exact hq r hr2

theorem isortAsc_sorted {α β : Type} [LinearOrder β] (key : α → β) (l : List α) :
    (isortAsc key l).Pairwise (fun a b => key a ≤ key b) := by
  induction l with
  | nil => simp [isortAsc]
  | cons p rest ih => exact insertAsc_sorted key p _ ih

theorem insertAsc_pairwise_lex {α β : Type} [LinearOrder β] (key : α → β) (pos : α → Nat)
    (p : α) (l : List α) (hl : l.Pairwise (lexLt key pos))
    (hp : ∀ q ∈ l, pos p < pos q) :
    (insertAsc key p l).Pairwise (lexLt key pos) := by
  induction l with
  | nil => simp [insertAsc]
  | cons q rest ih =>
    rw [List.pairwise_cons] at hl
    obtain ⟨hq, hrest⟩ := hl
    simp only [insertAsc]
    split
    · rename_i h
      rw [List.pairwise_cons]
      refine ⟨?_, ?_⟩
      · intro r hr
        rcases List.mem_cons.mp hr with rfl | hr
        · rcases lt_or_eq_of_le h with hlt | heq
          · exact Or.inl hlt
          · exact Or.inr ⟨heq, hp r (List.mem_cons_self r rest)⟩
        · have hqr := hq r hr
          have hkey_qr : key q ≤ key r := by
            rcases hqr with h1 | ⟨h1, _⟩
            · exact le_of_lt h1
            · exact le_of_eq h1
          rcases lt_or_eq_of_le (le_trans h hkey_qr) with hlt | heq
          · exact Or.inl hlt
          · exact Or.inr ⟨heq, hp r (List.mem_cons_of_mem q hr)⟩
      · rw [List.pairwise_cons]
        exact ⟨hq, hrest⟩
    · rename_i h
      rw [List.pairwise_cons]
      refine ⟨?_, ih hrest (fun r hr => hp r (List.mem_cons_of_mem q hr))⟩
      intro r hr
      have hmem : r = p ∨ r ∈ rest := by
        have := (insertAsc_perm key p rest).mem_iff.mp hr
        simpa using this
      rcases hmem with rfl | hr2
      · exact Or.inl (lt_of_not_le h)
      · exact hq r hr2

theorem isortAsc_pairwise_lex {α β : Type} [LinearOrder β] (key : α → β) (pos : α → Nat)
    (l : List α) (h : l.Pairwise (fun a b => pos a < pos b)) :
    (isortAsc key l).Pairwise (lexLt key pos) := by
  induction l with
  | nil => simp [isortAsc]
  | cons p rest ih =>
    rw [List.pairwise_cons] at h
    exact insertAsc_pairwise_lex key pos p _ (ih h.2)
      (fun q hq => h.1 q ((isortAsc_perm key rest).mem_iff.mp hq))

theorem pandasSortDesc_perm {α β : Type} [LinearOrder β] (key : α → β) (l : List α) :
    (pandasSortDesc key l).Perm l := by
  unfold pandasSortDesc
  exact (List.reverse_perm _).trans (isortAsc_perm key l)

theorem pandasSortDesc_sorted {α β : Type} [LinearOrder β] (key : α → β) (l : List α) :
    (pandasSortDesc key l).Pairwise (fun a b => key b ≤ key a) := by
  unfold pandasSortDesc
  rw [List.pairwise_reverse]
  exact isortAsc_sorted key l

theorem pandasSortDesc_pairwise_lex {α β : Type} [LinearOrder β] (key : α → β)
    (pos : α → Nat) (l : List α) (h : l.Pairwise (fun a b => pos a < pos b)) :
    (pandasSortDesc key l).Pairwise (fun a b => lexLt key pos b a) := by
  unfold pandasSortDesc
  rw [List.pairwise_reverse]
  exact isortAsc_pairwise_lex key pos l h

/-! ## Dot products and the similarity matrix -/

theorem dot_nil_left (y : List ℚ) : dot [] y = 0 := by
  cases y <;> rfl

theorem dot_nil_right (x : List ℚ) : dot x [] = 0 := by
  cases x <;> rfl

theorem dot_cons_cons (a b : ℚ) (x y : List ℚ) :
    dot (a :: x) (b :: y) = a * b + dot x y := by
  simp [dot]

theorem dot_comm (x : List ℚ) : ∀ y, dot x y = dot y x := by
  induction x with
  | nil => intro y; rw [dot_nil_left, dot_nil_right]
  | cons a x ih =>
    intro y
    cases y with
    | nil => rw [dot_nil_left, dot_nil_right]
    | cons b y => rw [dot_cons_cons, dot_cons_cons, mul_comm, ih y]

theorem dot_self_nonneg (x : List ℚ) : 0 ≤ dot x x := by
  induction x with
  | nil => rw [dot_nil_left]
  | cons a x ih =>
    rw [dot_cons_cons]
    nlinarith [sq_nonneg a]

theorem dot_sq_le (x : List ℚ) : ∀ y, (dot x y) ^ 2 ≤ dot x x * dot y y := by
  induction x with
  | nil =>
    intro y
    rw [dot_nil_left, dot_nil_left]
    simp [dot_self_nonneg y]
  | cons a x ih =>
    intro y
    cases y with
    | nil =>
      rw [dot_nil_right, dot_nil_right]
      simp
    | cons b y =>
      have h1 := ih y
      have h2 := dot_self_nonneg x
      have h3 := dot_self_nonneg y
      rw [dot_cons_cons, dot_cons_cons, dot_cons_cons]
      rcases eq_or_lt_of_le h3 with hSy0 | hSy
      · have hD2 : dot x y ^ 2 ≤ 0 := by nlinarith

        have hDsq : dot x y ^ 2 = 0 := le_antisymm hD2 (sq_nonneg _)
        have hD : dot x y = 0 := by
          exact pow_eq_zero_iff (two_ne_zero) |>.mp hDsq
        rw [hD, ← hSy0]
        nlinarith [mul_nonneg h2 (sq_nonneg b)]
      · have key1 : 0 ≤ b ^ 2 * (dot x x * dot y y - dot x y ^ 2) :=
          mul_nonneg (sq_nonneg b) (by linarith)
        have key2 : 0 ≤ dot y y * (dot x x * dot y y - dot x y ^ 2) :=
          mul_nonneg h3 (by linarith)
        have key3 : 0 ≤ (a * dot y y - b * dot x y) ^ 2 := sq_nonneg _
        nlinarith [key1, key2, key3, hSy]

theorem getD_map_range {α : Type} (f : Nat → α) (n i : Nat) (d : α) (h : i < n) :
    (((List.range n).map f).getD i d) = f i := by
  rw [List.getD_eq_getElem?_getD, List.getElem?_map, List.getElem?_range h]
  rfl

theorem cosine_similarity_entry (X : List (List ℚ)) (i j : Nat)
    (hi : i < X.length) (hj : j < X.length) :
    ((cosine_similarity X).getD i []).getD j 0 = gram X i j := by
  unfold cosine_similarity
  rw [getD_map_range _ _ _ _ hi, getD_map_range _ _ _ _ hj]

theorem getD_mem_of_lt {α : Type} (l : List α) (i : Nat) (d : α) (h : i < l.length) :
    l.getD i d ∈ l := by
  rw [List.getD_eq_getElem?_getD, List.getElem?_eq_getElem h]
  exact List.getElem_mem h

/-! ## C6: similarity matrix symmetry, bounds, unit diagonal -/

/-- C6: when the embedding rows are unit vectors (as `compute_embeddings`
requests with `normalize_embeddings=True`), the similarity matrix returned by
`compute_similarity_report` is symmetric, every entry lies in [-1, 1], and
every diagonal entry equals 1. -/
theorem C6_similarity_matrix (names : List String) (X : List (List ℚ)) (k : Nat)
    (hunit : ∀ r ∈ X, dot r r = 1) :
    ∀ i j, i < X.length → j < X.length →
      (((compute_similarity_report names X k).1.getD i []).getD j 0 =
        ((compute_similarity_report names X k).1.getD j []).getD i 0) ∧
      (-1 ≤ ((compute_similarity_report names X k).1.getD i []).getD j 0) ∧
      (((compute_similarity_report names X k).1.getD i []).getD j 0 ≤ 1) ∧
      (((compute_similarity_report names X k).1.getD i []).getD i 0 = 1) := by
  intro i j hi hj
  have hfst : (compute_similarity_report names X k).1 = cosine_similarity X := rfl
  rw [hfst]
  rw [cosine_similarity_entry X i j hi hj, cosine_similarity_entry X j i hj hi,
    cosine_similarity_entry X i i hi hi]
  have hii : dot (X.getD i []) (X.getD i []) = 1 :=
    hunit _ (getD_mem_of_lt X i [] hi)
  have hjj : dot (X.getD j []) (X.getD j []) = 1 :=
    hunit _ (getD_mem_of_lt X j [] hj)
  have hcs := dot_sq_le (X.getD i []) (X.getD j [])
  rw [hii, hjj] at hcs
  refine ⟨?_, ?_, ?_, ?_⟩
  · exact dot_comm _ _
  · unfold gram
    nlinarith [sq_nonneg (dot (X.getD i []) (X.getD j []) + 1)]
  · unfold gram
    nlinarith [sq_nonneg (dot (X.getD i []) (X.getD j []) - 1)]
  · exact hii

/-- Witness for C6 at a concrete two-row unit matrix. -/
theorem C6_similarity_matrix_witness :
    (((compute_similarity_report ["A", "B"] [[1, 0], [0, 1]] 3).1.getD 0 []).getD 1 0 =
      ((compute_similarity_report ["A", "B"] [[1, 0], [0, 1]] 3).1.getD 1 []).getD 0 0) ∧
    (-1 ≤ ((compute_similarity_report ["A", "B"] [[1, 0], [0, 1]] 3).1.getD 0 []).getD 1 0) ∧
    (((compute_similarity_report ["A", "B"] [[1, 0], [0, 1]] 3).1.getD 0 []).getD 1 0 ≤ 1) ∧
    (((compute_similarity_report ["A", "B"] [[1, 0], [0, 1]] 3).1.getD 0 []).getD 0 0 = 1) :=
  C6_similarity_matrix ["A", "B"] [[1, 0], [0, 1]] 3 (by simp [dot]) 0 1 (by decide) (by decide)

/-! ## C9: duplicate-detection filter -/

/-- C9: the duplicate filter keeps exactly the neighbor rows whose similarity
is at least the threshold, sorted by non-increasing similarity; in
particular, at threshold 0.9 a table with similarities [0.95, 0.88, 0.99]
filters to exactly the rows with 0.95 and 0.99, sorted descending. -/
theorem C9_duplicate_filter :
    (∀ (t : ℚ) (report : List (String × String × ℚ)),
      (duplicates_df t report).Perm (report.filter (fun r => decide (t ≤ r.2.2))) ∧
      (duplicates_df t report).Pairwise (fun a b => b.2.2 ≤ a.2.2) ∧
      (∀ r ∈ duplicates_df t report, t ≤ r.2.2) ∧
      (∀ r ∈ report, t ≤ r.2.2 → r ∈ duplicates_df t report)) ∧
    duplicates_df (9/10) [("A", "B", 95/100), ("A", "C", 88/100), ("B", "A", 99/100)] =
      [("B", "A", 99/100), ("A", "B", 95/100)] := by
  constructor
  · intro t report
    refine ⟨pandasSortDesc_perm _ _, pandasSortDesc_sorted _ _, ?_, ?_⟩
    · intro r hr
      have hmem : r ∈ report.filter (fun r => decide (t ≤ r.2.2)) :=
        (pandasSortDesc_perm _ _).mem_iff.mp hr
      simpa using (List.mem_filter.mp hmem).2
    · intro r hr hle
      exact (pandasSortDesc_perm _ _).mem_iff.mpr
        (List.mem_filter.mpr ⟨hr, by simpa using hle⟩)
  · norm_num [duplicates_df, pandasSortDesc, isortAsc, insertAsc, List.filter]

/-- Witness for C9: the 0.99 row survives the 0.9 threshold. -/
theorem C9_duplicate_filter_witness :
    ("B", "A", (99 : ℚ)/100) ∈ duplicates_df (9/10)
      [("A", "B", 95/100), ("A", "C", 88/100), ("B", "A", 99/100)] :=
  (C9_duplicate_filter.1 (9/10)
    [("A", "B", 95/100), ("A", "C", 88/100), ("B", "A", 99/100)]).2.2.2
    ("B", "A", 99/100) (by simp) (by norm_num)

/-! ## Rounding lemmas -/

theorem le_roundHalfEven (q : ℚ) : ⌊q⌋ ≤ roundHalfEven q := by
  unfold roundHalfEven
  split_ifs <;> omega

theorem roundHalfEven_le (q : ℚ) : roundHalfEven q ≤ ⌊q⌋ + 1 := by
  unfold roundHalfEven
  split_ifs <;> omega

theorem roundHalfEven_mono {q r : ℚ} (h : q ≤ r) :
    roundHalfEven q ≤ roundHalfEven r := by
  have hf : ⌊q⌋ ≤ ⌊r⌋ := Int.floor_le_floor h
  rcases eq_or_lt_of_le hf with heq | hlt
  · unfold roundHalfEven
    rw [← heq]
    split_ifs <;> first | omega | (exfalso; linarith)
  · calc roundHalfEven q ≤ ⌊q⌋ + 1 := roundHalfEven_le q
    _ ≤ ⌊r⌋ := by omega
    _ ≤ roundHalfEven r := le_roundHalfEven r

theorem round3_mono {q r : ℚ} (h : q ≤ r) : round3 q ≤ round3 r := by
  unfold round3
  have hm := roundHalfEven_mono (by linarith : q * 1000 ≤ r * 1000)
  have hc : ((roundHalfEven (q * 1000) : ℚ)) ≤ (roundHalfEven (r * 1000) : ℚ) := by
    exact_mod_cast hm
  linarith

/-! ## C1: the neighbor table -/

theorem names_getD_inj (names : List String) (hnd : names.Nodup) (i j : Nat)
    (hi : i < names.length) (hj : j < names.length)
    (h : names.getD i "" = names.getD j "") : i = j := by
  have hgi : names.getD i "" = names.get ⟨i, hi⟩ := by
    rw [List.getD_eq_getElem?_getD, List.getElem?_eq_getElem hi]
    rfl
  have hgj : names.getD j "" = names.get ⟨j, hj⟩ := by
    rw [List.getD_eq_getElem?_getD, List.getElem?_eq_getElem hj]
    rfl
  rw [hgi, hgj] at h
  have := (List.Nodup.get_inj_iff hnd).mp h
  exact congrArg Fin.val this

theorem simRowDropSelf_pairwise_fst (names : List String) (X : List (List ℚ)) (i : Nat) :
    (simRowDropSelf names X i).Pairwise (fun a b => a.1 < b.1) := by
  unfold simRowDropSelf
  apply List.Pairwise.filter
  rw [List.pairwise_map]
  exact List.pairwise_lt_range _

theorem simRowDropSelf_mem {names : List String} {X : List (List ℚ)} {i : Nat}
    {p : Nat × ℚ} (hp : p ∈ simRowDropSelf names X i) :
    p.1 < names.length ∧ names.getD p.1 "" ≠ names.getD i "" := by
  unfold simRowDropSelf at hp
  obtain ⟨hmem, hpred⟩ := List.mem_filter.mp hp
  obtain ⟨j, hj, rfl⟩ := List.mem_map.mp hmem
  exact ⟨by simpa using List.mem_range.mp hj, by simpa using hpred⟩

theorem simRowDropSelf_nodup_fst (names : List String) (X : List (List ℚ)) (i : Nat) :
    ((simRowDropSelf names X i).map Prod.fst).Nodup := by
  unfold simRowDropSelf
  apply List.Nodup.sublist ((List.filter_sublist _).map Prod.fst)
  simp only [List.map_map]
  have : (Prod.fst ∘ fun j => (j, gram X i j)) = id := rfl
  rw [this, List.map_id]
  exact List.nodup_range _

/-- C1 (amended): for unique rulenames, the neighbor table is the
concatenation, per rule in original order, of that rule's rows; each rule
contributes at most k rows, each naming a distinct other rule (never the rule
itself), sorted by non-increasing reported similarity with each reported
similarity rounded to 3 decimals; ties in the exact similarity are broken by
*reversed* original row order (pandas reverses a stable ascending argsort for
a descending sort); and if there are at most one rule the table is empty. -/
theorem C1_neighbor_table (names : List String) (X : List (List ℚ)) (k : Nat)
    (hnd : names.Nodup) :
    ((compute_similarity_report names X k).2 =
      (List.range names.length).flatMap (neighbor_rows names X k)) ∧
    (∀ i, i < names.length →
      (neighbor_rows names X k i).length ≤ k ∧
      (∀ r ∈ neighbor_rows names X k i,
        r.1 = names.getD i "" ∧ r.2.1 ≠ names.getD i "") ∧
      (neighbor_rows names X k i).Pairwise (fun a b => a.2.1 ≠ b.2.1) ∧
      (neighbor_rows names X k i).Pairwise (fun a b => b.2.2 ≤ a.2.2) ∧
      ((pandasSortDesc (fun p => p.2) (simRowDropSelf names X i)).take k).Pairwise
        (fun a b => a.2 = b.2 → b.1 < a.1)) ∧
    (names.length ≤ 1 → (compute_similarity_report names X k).2 = []) := by
  refine ⟨rfl, ?_, ?_⟩
  · intro i hi
    have hsorted := pandasSortDesc_sorted (fun p : Nat × ℚ => p.2) (simRowDropSelf names X i)
    have hperm := pandasSortDesc_perm (fun p : Nat × ℚ => p.2) (simRowDropSelf names X i)
    have htake : List.Sublist
        ((pandasSortDesc (fun p : Nat × ℚ => p.2) (simRowDropSelf names X i)).take k)
        (pandasSortDesc (fun p : Nat × ℚ => p.2) (simRowDropSelf names X i)) :=
      List.take_sublist k _
    refine ⟨?_, ?_, ?_, ?_, ?_⟩
    · unfold neighbor_rows
      rw [List.length_map, List.length_take]
      exact min_le_left _ _
    · intro r hr
      unfold neighbor_rows at hr
      obtain ⟨p, hp, rfl⟩ := List.mem_map.mp hr
      have hpl : p ∈ simRowDropSelf names X i := hperm.mem_iff.mp (htake.subset hp)
      exact ⟨rfl, (simRowDropSelf_mem hpl).2⟩
    · have hnodup_fst : ((pandasSortDesc (fun p : Nat × ℚ => p.2)
          (simRowDropSelf names X i)).map Prod.fst).Nodup :=
        (hperm.map Prod.fst).nodup_iff.mpr (simRowDropSelf_nodup_fst names X i)
      rw [List.Nodup, List.pairwise_map] at hnodup_fst
      have hpw := hnodup_fst.sublist htake
      unfold neighbor_rows
      rw [List.pairwise_map]
      refine List.Pairwise.imp_of_mem ?_ hpw
      intro a b ha hb hne heqn
      have ha' : a.1 < names.length :=
        (simRowDropSelf_mem (hperm.mem_iff.mp (htake.subset ha))).1
      have hb' : b.1 < names.length :=
        (simRowDropSelf_mem (hperm.mem_iff.mp (htake.subset hb))).1
      exact hne (names_getD_inj names hnd _ _ ha' hb' heqn)
    · unfold neighbor_rows
      rw [List.pairwise_map]
      exact (hsorted.sublist htake).imp (fun hab => round3_mono hab)
    · have hplex := pandasSortDesc_pairwise_lex (fun p : Nat × ℚ => p.2) Prod.fst
        (simRowDropSelf names X i) (simRowDropSelf_pairwise_fst names X i)
      refine (hplex.sublist htake).imp ?_
      intro a b hab heq
      rcases hab with hlt | ⟨_, hpos⟩
      · exact absurd hlt (by simp [heq])
      · exact hpos
  · intro hle
    cases names with
    | nil => rfl
    | cons a rest =>
      cases rest with
      | nil =>
        show (List.range 1).flatMap (neighbor_rows [a] X k) = []
        simp [List.range_succ, neighbor_rows, simRowDropSelf, pandasSortDesc, isortAsc]
      | cons b rest2 =>
        simp at hle

/-- Witness for C1: the amended properties hold at rule 0 of a concrete
two-rule report. -/
theorem C1_neighbor_table_witness :
    (["A", "B"] : List String).Nodup ∧ 0 < (["A", "B"] : List String).length ∧
    ((neighbor_rows ["A", "B"] [[(1 : ℚ), 0], [0, 1]] 3 0).length ≤ 3 ∧
     (∀ r ∈ neighbor_rows ["A", "B"] [[(1 : ℚ), 0], [0, 1]] 3 0,
       r.1 = (["A", "B"] : List String).getD 0 "" ∧
       r.2.1 ≠ (["A", "B"] : List String).getD 0 "") ∧
     (neighbor_rows ["A", "B"] [[(1 : ℚ), 0], [0, 1]] 3 0).Pairwise
       (fun a b => a.2.1 ≠ b.2.1) ∧
     (neighbor_rows ["A", "B"] [[(1 : ℚ), 0], [0, 1]] 3 0).Pairwise
       (fun a b => b.2.2 ≤ a.2.2) ∧
     ((pandasSortDesc (fun p : Nat × ℚ => p.2)
        (simRowDropSelf ["A", "B"] [[(1 : ℚ), 0], [0, 1]] 0)).take 3).Pairwise
       (fun a b => a.2 = b.2 → b.1 < a.1)) :=
  ⟨by decide, by decide,
    (C1_neighbor_table ["A", "B"] [[1, 0], [0, 1]] 3 (by decide)).2.1 0 (by decide)⟩

/-- Counterexample for C1 as stated: with rules A, B, C embedded as unit rows
where B and C are identical, rule A is tied between B and C, and the code
emits C before B — the reverse of stable original order. -/
theorem C1_counterexample :
    ¬ stableTiesOk ["A", "B", "C"]
      ((compute_similarity_report ["A", "B", "C"] [[1, 0], [0, 1], [0, 1]] 3).2) := by
  intro hstable
  have htab : (compute_similarity_report ["A", "B", "C"] [[1, 0], [0, 1], [0, 1]] 3).2 =
      [("A", "C", round3 0), ("A", "B", round3 0), ("B", "C", round3 1),
       ("B", "A", round3 0), ("C", "B", round3 1), ("C", "A", round3 0)] := by
    norm_num [compute_similarity_report, cosine_similarity, neighbor_rows, simRowDropSelf,
      gram, dot, pandasSortDesc, isortAsc, insertAsc, List.range_succ, List.filter]
  rw [htab] at hstable
  unfold stableTiesOk at hstable
  rw [List.pairwise_cons] at hstable
  have hbad := hstable.1 ("A", "B", round3 0) (by simp) rfl rfl
  simp [List.indexOf_cons] at hbad

/-! ## C2: DBSCAN with min_samples = 1 -/

theorem eraseDups_loop_mem {α : Type} [BEq α] [LawfulBEq α] (as : List α) :
    ∀ (bs : List α) (a : α), a ∈ List.eraseDups.loop as bs ↔ a ∈ as ∨ a ∈ bs := by
  induction as with
  | nil =>
    intro bs a
    simp [List.eraseDups.loop]
  | cons x as ih =>
    intro bs a
    simp only [List.eraseDups.loop]
    cases helem : bs.elem x with
    | true =>
      rw [ih]
      have hx : x ∈ bs := by
        rw [← List.elem_iff]
        exact helem
      constructor
      · intro h
        rcases h with h | h
        · exact Or.inl (List.mem_cons_of_mem x h)
        · exact Or.inr h
      · intro h
        rcases h with h | h
        · rcases List.mem_cons.mp h with rfl | h
          · exact Or.inr hx
          · exact Or.inl h
        · exact Or.inr h
    | false =>
      rw [ih]
      constructor
      · intro h
        rcases h with h | h
        · exact Or.inl (List.mem_cons_of_mem x h)
        · rcases List.mem_cons.mp h with rfl | h
          · exact Or.inl (List.mem_cons_self _ _)
          · exact Or.inr h
      · intro h
        rcases h with h | h
        · rcases List.mem_cons.mp h with rfl | h
          · exact Or.inr (List.mem_cons_self _ _)
          · exact Or.inl h
        · exact Or.inr (List.mem_cons_of_mem x h)

theorem mem_eraseDups {α : Type} [BEq α] [LawfulBEq α] (l : List α) (a : α) :
    a ∈ l.eraseDups ↔ a ∈ l := by
  unfold List.eraseDups
  rw [eraseDups_loop_mem]
  simp

theorem nbr_oob (X : List (List ℚ)) (m i : Nat) (hm : X.length ≤ m) :
    nbr X m i = false := by
  unfold nbr gram
  rw [List.getD_eq_default _ _ hm, dot_nil_left]
  simp only [decide_eq_false_iff_not, dbEps]
  norm_num

theorem nbr_symm (X : List (List ℚ)) (i j : Nat) : nbr X i j = nbr X j i := by
  unfold nbr gram
  rw [dot_comm]

theorem nbr_self (X : List (List ℚ)) (hunit : ∀ r ∈ X, dot r r = 1) (i : Nat)
    (hi : i < X.length) : nbr X i i = true := by
  unfold nbr gram
  rw [hunit _ (getD_mem_of_lt X i [] hi)]
  simp only [decide_eq_true_eq, dbEps]
  norm_num

theorem reachF_self (X : List (List ℚ)) (ms fuel i : Nat) :
    reachF X ms fuel i i = true := by
  cases fuel <;> simp [reachF]

theorem reachF_isolated_from {X : List (List ℚ)} {ms : Nat} {i : Nat}
    (hiso : ∀ m, nbr X i m = true → m = i) :
    ∀ fuel j, reachF X ms fuel i j = true → i = j := by
  intro fuel
  induction fuel with
  | zero =>
    intro j h
    simpa [reachF] using h
  | succ f ih =>
    intro j h
    simp only [reachF, Bool.or_eq_true, beq_iff_eq, Bool.and_eq_true,
      List.any_eq_true] at h
    rcases h with h | ⟨_, m, _, hnbr, hreach⟩
    · exact h
    · have hmi : m = i := hiso m hnbr
      subst hmi
      exact ih j hreach

theorem reachF_isolated_to {X : List (List ℚ)} {ms : Nat} {i : Nat}
    (hiso : ∀ m, nbr X m i = true → m = i) :
    ∀ fuel j, reachF X ms fuel j i = true → j = i := by
  intro fuel
  induction fuel with
  | zero =>
    intro j h
    simpa [reachF] using h
  | succ f ih =>
    intro j h
    simp only [reachF, Bool.or_eq_true, beq_iff_eq, Bool.and_eq_true,
      List.any_eq_true] at h
    rcases h with h | ⟨_, m, _, hnbr, hreach⟩
    · exact h
    · have hmi : m = i := ih m hreach
      subst hmi
      exact hiso j hnbr

theorem scanFirst_eq_none (p : Nat → Bool) (n : Nat) (h : ∀ m, m < n → p m = false) :
    scanFirst p n = none := by
  induction n with
  | zero => rfl
  | succ n ih =>
    simp [scanFirst, ih (fun m hm => h m (by omega)), h n (by omega)]

theorem scanFirst_eq_some (p : Nat → Bool) (n i : Nat) (hi : i < n) (hp : p i = true)
    (hmin : ∀ m, m < i → p m = false) : scanFirst p n = some i := by
  induction n with
  | zero => omega
  | succ n ih =>
    rcases Nat.lt_or_ge i n with hin | hin
    · simp [scanFirst, ih hin]
    · have hieq : i = n := by omega
      subst hieq
      simp [scanFirst, scanFirst_eq_none p i hmin, hp]

theorem scanFirst_some_spec (p : Nat → Bool) :
    ∀ n m, scanFirst p n = some m → p m = true := by
  intro n
  induction n with
  | zero =>
    intro m h
    simp [scanFirst] at h
  | succ n ih =>
    intro m h
    simp only [scanFirst] at h
    cases hsc : scanFirst p n with
    | some m2 =>
      rw [hsc] at h
      injection h with h
      subst h
      exact ih _ hsc
    | none =>
      rw [hsc] at h
      by_cases hpn : p n = true
      · simp [hpn] at h
        subst h
        exact hpn
      · simp [hpn] at h

theorem isCore_one (X : List (List ℚ)) (hunit : ∀ r ∈ X, dot r r = 1) (i : Nat)
    (hi : i < X.length) : isCore X 1 i = true := by
  unfold isCore
  have hmem : i ∈ (List.range X.length).filter (fun j => nbr X i j) :=
    List.mem_filter.mpr ⟨List.mem_range.mpr hi, nbr_self X hunit i hi⟩
  exact decide_eq_true (List.length_pos_of_mem hmem)

theorem isolated_to {X : List (List ℚ)} {i : Nat}
    (hiso : ∀ j, j < X.length → j ≠ i → nbr X i j = false) :
    ∀ m, nbr X m i = true → m = i := by
  intro m hm
  by_cases hmn : m < X.length
  · by_contra hne
    rw [nbr_symm] at hm
    rw [hiso m hmn hne] at hm
    exact Bool.false_ne_true hm
  · rw [nbr_oob X m i (by omega)] at hm
    exact absurd hm Bool.false_ne_true

theorem isolated_from {X : List (List ℚ)} {i : Nat} (hi : i < X.length)
    (hiso : ∀ j, j < X.length → j ≠ i → nbr X i j = false) :
    ∀ m, nbr X i m = true → m = i := by
  intro m hm
  by_cases hmn : m < X.length
  · by_contra hne
    rw [hiso m hmn hne] at hm
    exact Bool.false_ne_true hm
  · rw [nbr_symm, nbr_oob X m i (by omega)] at hm
    exact absurd hm Bool.false_ne_true

theorem rep_isolated (X : List (List ℚ)) (i : Nat) (hi : i < X.length)
    (hiso : ∀ j, j < X.length → j ≠ i → nbr X i j = false) :
    rep X 1 i = i := by
  unfold rep
  rw [scanFirst_eq_some (fun m => reachF X 1 X.length m i) X.length i hi
    (reachF_self X 1 X.length i) ?_]
  · rfl
  · intro m hmi
    cases h : reachF X 1 X.length m i with
    | false => exact h
    | true =>
      exact absurd (reachF_isolated_to (isolated_to hiso) _ m h) (by omega)

theorem labelZ_nonneg (X : List (List ℚ)) (hunit : ∀ r ∈ X, dot r r = 1) (i : Nat)
    (hi : i < X.length) : 0 ≤ labelZ X 1 i := by
  unfold labelZ
  rw [if_pos (isCore_one X hunit i hi)]
  exact Int.natCast_nonneg _

theorem rep_mem_reps (X : List (List ℚ)) (ms j : Nat) (hj : j < X.length)
    (hcore : isCore X ms j = true) :
    rep X ms j ∈ ((((List.range X.length).filter (fun m => isCore X ms m)).map
      (rep X ms)).eraseDups) := by
  rw [mem_eraseDups]
  exact List.mem_map_of_mem _ (List.mem_filter.mpr ⟨List.mem_range.mpr hj, hcore⟩)

theorem labelZ_eq_iff_isolated (X : List (List ℚ)) (hunit : ∀ r ∈ X, dot r r = 1)
    (i j : Nat) (hi : i < X.length) (hj : j < X.length)
    (hiso : ∀ m, m < X.length → m ≠ i → nbr X i m = false) :
    labelZ X 1 j = labelZ X 1 i ↔ j = i := by
  constructor
  · intro h
    have hci := isCore_one X hunit i hi
    have hcj := isCore_one X hunit j hj
    unfold labelZ at h
    rw [if_pos hci, if_pos hcj] at h
    have hidx := Int.natCast_inj.mp h
    have hrep : rep X 1 j = rep X 1 i :=
      (List.indexOf_inj (rep_mem_reps X 1 j hj hcj) (rep_mem_reps X 1 i hi hci)).mp hidx
    rw [rep_isolated X i hi hiso] at hrep
    unfold rep at hrep
    cases hsc : scanFirst (fun m => reachF X 1 X.length m j) X.length with
    | some m =>
      rw [hsc] at hrep
      simp only [Option.getD_some] at hrep
      subst hrep
      have hreach := scanFirst_some_spec _ _ _ hsc
      exact (reachF_isolated_from (isolated_from hi hiso) _ j hreach).symm
    | none =>
      rw [hsc] at hrep
      simpa using hrep
  · intro h
    rw [h]

theorem range_filter_single (n i : Nat) (hi : i < n) (p : Nat → Bool)
    (hp : ∀ j, j < n → (p j = true ↔ j = i)) :
    (List.range n).filter p = [i] := by
  induction n with
  | zero => omega
  | succ n ih =>
    rw [List.range_succ, List.filter_append]
    rcases Nat.lt_or_ge i n with hin | hin
    · rw [ih hin (fun j hj => hp j (by omega))]
      have hpn : p n = false := by
        cases h : p n with
        | false => rfl
        | true => exact absurd ((hp n (by omega)).mp h) (by omega)
      simp [List.filter, hpn]
    · have hieq : i = n := by omega
      subst hieq
      have h1 : (List.range i).filter p = [] := by
        rw [List.filter_eq_nil]
        intro a ha
        have halt := List.mem_range.mp ha
        rw [Bool.not_eq_true, ← Bool.not_eq_true]
        intro hpa
        exact absurd ((hp a (by omega)).mp hpa) (by omega)
      rw [h1]
      simp [List.filter, (hp i (by omega)).mpr rfl]

/-- C2: with unit embedding rows and `min_samples = 1`, DBSCAN assigns every
rule exactly one cluster id, the ids partition the rule set, every id is
non-negative (no point is marked noise), and a point with no neighbors
within eps forms a singleton cluster. -/
theorem C2_dbscan_partition (X : List (List ℚ)) (hunit : ∀ r ∈ X, dot r r = 1)
    (hne : X ≠ []) :
    ((dbscan_labels X 1).length = X.length) ∧
    (∀ i, i < X.length → (dbscan_labels X 1).getD i 0 = labelZ X 1 i) ∧
    (∀ i, i < X.length → 0 ≤ labelZ X 1 i) ∧
    (∀ i, i < X.length → ∃! c : Int, labelZ X 1 i = c) ∧
    (∀ c d : Int, c ≠ d → ∀ i, ¬(labelZ X 1 i = c ∧ labelZ X 1 i = d)) ∧
    (∀ i, i < X.length →
      i ∈ (List.range X.length).filter (fun j => labelZ X 1 j == labelZ X 1 i)) ∧
    (∀ i, i < X.length → (∀ j, j < X.length → j ≠ i → nbr X i j = false) →
      (List.range X.length).filter (fun j => labelZ X 1 j == labelZ X 1 i) = [i]) := by
  have hlen : (dbscan_labels X 1).length = X.length := by
    unfold dbscan_labels
    simp
  refine ⟨hlen, ?_, fun i hi => labelZ_nonneg X hunit i hi, ?_, ?_, ?_, ?_⟩
  · intro i hi
    unfold dbscan_labels
    exact getD_map_range _ _ _ _ hi
  · intro i _
    exact ⟨labelZ X 1 i, rfl, fun c hc => hc.symm⟩
  · intro c d hcd i ⟨hc, hd⟩
    exact hcd (hc ▸ hd ▸ rfl)
  · intro i hi
    exact List.mem_filter.mpr ⟨List.mem_range.mpr hi, by simp⟩
  · intro i hi hiso
    apply range_filter_single _ _ hi
    intro j hj
    rw [beq_iff_eq]
    exact labelZ_eq_iff_isolated X hunit i j hi hj hiso

/-- Witness for C2: three rules, the first isolated, the second and third
identical; the first forms a singleton cluster and ids are non-negative. -/
theorem C2_dbscan_partition_witness :
    (0 ≤ labelZ [[1, 0], [0, 1], [0, 1]] 1 0) ∧
    (List.range 3).filter
      (fun j => labelZ [[1, 0], [0, 1], [0, 1]] 1 j == labelZ [[1, 0], [0, 1], [0, 1]] 1 0) =
      [0] := by
  have h := C2_dbscan_partition [[1, 0], [0, 1], [0, 1]]
    (by simp [dot]) (by simp)
  refine ⟨h.2.2.1 0 (by decide), ?_⟩
  have hs := h.2.2.2.2.2.2 0 (by decide) ?_
  · exact hs
  · intro j hj hj0
    have hj3 : j < 3 := by simpa using hj
    interval_cases j
    · omega
    · norm_num [nbr, gram, dot, dbEps, List.getD_cons_zero, List.getD_cons_succ,
        decide_eq_false_iff_not]
    · norm_num [nbr, gram, dot, dbEps, List.getD_cons_zero, List.getD_cons_succ,
        decide_eq_false_iff_not]

/-! ## C7: cluster labels -/

theorem enum_pairwise_fst {α : Type} (l : List α) :
    l.enum.Pairwise (fun a b => a.1 < b.1) := by
  have h : (l.enum.map Prod.fst).Pairwise (fun a b => a < b) := by
    rw [List.enum_map_fst]
    exact List.pairwise_lt_range _
  rwa [List.pairwise_map] at h

theorem mem_enum_getD {α : Type} (l : List α) (d : α) (p : Nat × α) (h : p ∈ l.enum) :
    l.getD p.1 d = p.2 := by
  have hg := List.mem_enum_iff_getElem?.mp h
  rw [List.getD_eq_getElem?_getD, hg]
  rfl

theorem enum_nodup_fst {α : Type} (l : List α) : (l.enum.map Prod.fst).Nodup := by
  rw [List.enum_map_fst]
  exact List.nodup_range _

/-- C7 (amended): the cluster label is built from the top-3 features by
summed count; an empty cluster yields the empty label; the chosen features
are at most three, pairwise distinct, listed by non-increasing count — but
ties among equal counts are broken by *reversed* feature order (numpy's
`argsort()[::-1]` reverses a stable ascending argsort), the later
(alphabetically larger) feature coming first; every unchosen feature is
dominated by every chosen one in (count, feature-index) order; and the labels
`cluster_rules` stores are exactly `top_tokens` of each cluster id. -/
theorem C7_cluster_labels (texts : List String) (labels : List Int) (cid : Int) :
    ((cluster_subset texts labels cid).isEmpty = true →
      top_tokens texts labels cid = "") ∧
    ((cluster_subset texts labels cid).isEmpty = false →
      top_tokens texts labels cid = String.intercalate ", "
        ((top_idx texts labels cid).map (fun p => (vocabulary texts).getD p.1 ""))) ∧
    (top_idx texts labels cid).length ≤ 3 ∧
    (∀ p ∈ top_idx texts labels cid,
      p.1 < (vocabulary texts).length ∧
      (cluster_counts texts labels cid).getD p.1 0 = p.2) ∧
    ((top_idx texts labels cid).map Prod.fst).Nodup ∧
    (top_idx texts labels cid).Pairwise (fun a b => b.2 ≤ a.2) ∧
    (top_idx texts labels cid).Pairwise (fun a b => a.2 = b.2 → b.1 < a.1) ∧
    (∀ q ∈ (pandasSortDesc (fun p : Nat × Nat => p.2)
        (cluster_counts texts labels cid).enum).drop 3,
      ∀ p ∈ top_idx texts labels cid, q.2 < p.2 ∨ (q.2 = p.2 ∧ q.1 < p.1)) ∧
    (∀ (df : DF) (X : List (List ℚ)), ∀ p ∈ (cluster_rules df X).2,
      p.2 = top_tokens ((colVals df "text_rule").map textOfCell) (dbscan_labels X 1) p.1) := by
  have hperm := pandasSortDesc_perm (fun p : Nat × Nat => p.2)
    (cluster_counts texts labels cid).enum
  have htake : List.Sublist (top_idx texts labels cid)
      (pandasSortDesc (fun p : Nat × Nat => p.2) (cluster_counts texts labels cid).enum) :=
    List.take_sublist 3 _
  have hmem : ∀ p ∈ top_idx texts labels cid, p ∈ (cluster_counts texts labels cid).enum :=
    fun p hp => hperm.mem_iff.mp (htake.subset hp)
  have hlenc : (cluster_counts texts labels cid).length = (vocabulary texts).length := by
    unfold cluster_counts
    simp
  refine ⟨?_, ?_, ?_, ?_, ?_, ?_, ?_, ?_, ?_⟩
  · intro h
    unfold top_tokens
    rw [if_pos h]
  · intro h
    unfold top_tokens
    rw [if_neg (by simp [h])]
  · unfold top_idx
    rw [List.length_take]
    exact min_le_left _ _
  · intro p hp
    have hpe := hmem p hp
    exact ⟨hlenc ▸ List.fst_lt_of_mem_enum hpe, mem_enum_getD _ 0 p hpe⟩
  · have hnodup : ((pandasSortDesc (fun p : Nat × Nat => p.2)
        (cluster_counts texts labels cid).enum).map Prod.fst).Nodup :=
      (hperm.map Prod.fst).nodup_iff.mpr (enum_nodup_fst _)
    rw [List.Nodup, List.pairwise_map] at hnodup ⊢
    exact hnodup.sublist htake
  · exact (pandasSortDesc_sorted _ _).sublist htake
  · have hplex := pandasSortDesc_pairwise_lex (fun p : Nat × Nat => p.2) Prod.fst
      (cluster_counts texts labels cid).enum (enum_pairwise_fst _)
    refine (hplex.sublist htake).imp ?_
    intro a b hab heq
    rcases hab with hlt | ⟨_, hpos⟩
    · exact absurd hlt (by simp [heq])
    · exact hpos
  · intro q hq p hp
    have hfull := pandasSortDesc_pairwise_lex (fun p : Nat × Nat => p.2) Prod.fst
      (cluster_counts texts labels cid).enum (enum_pairwise_fst _)
    rw [← List.take_append_drop 3 (pandasSortDesc (fun p : Nat × Nat => p.2)
      (cluster_counts texts labels cid).enum)] at hfull
    have hcross := (List.pairwise_append.mp hfull).2.2
    exact hcross p hp q hq
  · intro df X p hp
    unfold cluster_rules at hp
    simp only at hp
    obtain ⟨c, _, rfl⟩ := List.mem_map.mp hp
    rfl

/-- Witness for C7: a cluster id with no members yields the empty label. -/
theorem C7_cluster_labels_witness : top_tokens ["alpha beta"] [0] 1 = "" :=
  (C7_cluster_labels ["alpha beta"] [0] 1).1 (by rfl)

/-- Counterexample for C7 as stated: one rule with text "alpha beta" forms
one cluster whose two features are tied at count 1; the code's label is
"beta, alpha" (reversed feature order), not the alphabetical "alpha, beta"
that the spec's tie rule produces. -/
theorem C7_counterexample :
    (cluster_rules [("rulename", [Cell.txt "R1"]), ("text_rule", [Cell.txt "alpha beta"])]
      [[1]]).2 = [(0, "beta, alpha")] ∧
    spec_top_tokens ["alpha beta"] [0] 0 = "alpha, beta" ∧
    lookupLabel (cluster_rules [("rulename", [Cell.txt "R1"]),
      ("text_rule", [Cell.txt "alpha beta"])] [[1]]).2 0 ≠
      spec_top_tokens ["alpha beta"] [0] 0 := by
  have hvocab : vocabulary ["alpha beta"] = ["alpha", "beta"] := by
    have h1 : vocabulary ["alpha beta"] = isortAsc id ["alpha", "beta"] := rfl
    rw [h1]
    simp +decide [isortAsc, insertAsc]
  have hcounts : cluster_counts ["alpha beta"] [0] 0 = [1, 1] := by
    unfold cluster_counts
    rw [hvocab]
    rfl
  have htid : top_idx ["alpha beta"] [0] 0 = [(1, 1), (0, 1)] := by
    unfold top_idx
    rw [hcounts]
    decide
  have htop : top_tokens ["alpha beta"] [0] 0 = "beta, alpha" := by
    unfold top_tokens
    rw [if_neg (by decide), htid, hvocab]
    rfl
  have hspec : spec_top_tokens ["alpha beta"] [0] 0 = "alpha, beta" := by
    unfold spec_top_tokens
    rw [if_neg (by decide), hcounts, hvocab]
    decide
  have hnbr : nbr [[(1 : ℚ)]] 0 0 = true := by
    norm_num [nbr, gram, dot, dbEps, List.getD_cons_zero, decide_eq_true_eq]
  have hcore : isCore [[(1 : ℚ)]] 1 0 = true := by
    simp [isCore, List.range_succ, List.filter, hnbr]
  have hlz : labelZ [[(1 : ℚ)]] 1 0 = 0 := by
    unfold labelZ
    rw [if_pos hcore]
    have hfil : (List.range (List.length [[(1 : ℚ)]])).filter
        (fun j => isCore [[(1 : ℚ)]] 1 j) = [0] := by
      simp [List.range_succ, List.filter, hcore]
    rw [hfil]
    decide
  have hlab : dbscan_labels [[(1 : ℚ)]] 1 = [0] := by
    unfold dbscan_labels
    simp [List.range_succ, hlz]
  have hclu : (cluster_rules [("rulename", [Cell.txt "R1"]),
      ("text_rule", [Cell.txt "alpha beta"])] [[1]]).2 = [(0, "beta, alpha")] := by
    unfold cluster_rules
    simp only [hlab]
    rw [show (colVals [("rulename", [Cell.txt "R1"]),
      ("text_rule", [Cell.txt "alpha beta"])] "text_rule").map textOfCell
        = ["alpha beta"] from rfl]
    rw [show isortAsc id (([(0 : Int)]).eraseDups) = [0] by decide]
    rw [List.map_cons, List.map_nil, htop]
  refine ⟨hclu, hspec, ?_⟩
  rw [hclu, hspec]
  decide

/-! ## C8: frame effects of the pipeline stages -/

theorem getCol_setCol_same (df : DF) (name : String) (vals : List Cell) :
    getCol (setCol df name vals) name = some vals := by
  induction df with
  | nil => simp [setCol, getCol]
  | cons c rest ih =>
    obtain ⟨n, v⟩ := c
    unfold setCol
    by_cases h : n = name
    · simp [getCol, h]
    · rw [if_neg h]
      have hb : (n == name) = false := beq_eq_false_iff_ne.mpr h
      simp only [getCol, List.find?] at ih ⊢
      rw [hb]
      exact ih

theorem getCol_setCol_other (df : DF) (name other : String) (vals : List Cell)
    (h : other ≠ name) :
    getCol (setCol df name vals) other = getCol df other := by
  induction df with
  | nil =>
    have hb : (name == other) = false := beq_eq_false_iff_ne.mpr (Ne.symm h)
    simp [setCol, getCol, List.find?, hb]
  | cons c rest ih =>
    obtain ⟨n, v⟩ := c
    unfold setCol
    by_cases hn : n = name
    · subst hn
      have hb : (n == other) = false := beq_eq_false_iff_ne.mpr (Ne.symm h)
      simp only [getCol, List.find?]
      rw [hb]
    · rw [if_neg hn]
      by_cases hno : n = other
      · simp [getCol, List.find?, hno]
      · have hb : (n == other) = false := beq_eq_false_iff_ne.mpr hno
        simp only [getCol, List.find?] at ih ⊢
        rw [hb]
        exact ih

theorem setCol_names_fresh (df : DF) (name : String) (vals : List Cell)
    (h : name ∉ df.map Prod.fst) :
    (setCol df name vals).map Prod.fst = df.map Prod.fst ++ [name] := by
  induction df with
  | nil => simp [setCol]
  | cons c rest ih =>
    obtain ⟨n, v⟩ := c
    simp only [List.map_cons, List.mem_cons] at h
    push_neg at h
    unfold setCol
    rw [if_neg (fun he => h.1 he.symm)]
    simp only [List.map_cons, List.cons_append]
    rw [ih h.2]

/-- C8: the pipeline stages only annotate the table: `compute_embeddings`
adds exactly the `text_rule` column (the flattened `rule_json` values) and
`cluster_rules` adds exactly the `cluster_id` and `cluster_label` columns,
appended after the existing columns when their names are fresh; every
previously existing column keeps its value list — hence the rows and their
order — unchanged under both operations. -/
theorem C8_frame_effects (df : DF) (X : List (List ℚ))
    (model : List String → List (List ℚ)) :
    (∀ name, name ≠ "text_rule" →
      getCol (compute_embeddings model df).1 name = getCol df name) ∧
    getCol (compute_embeddings model df).1 "text_rule" =
      some (((colVals df "rule_json").map flattenCell).map Cell.txt) ∧
    ("text_rule" ∉ df.map Prod.fst →
      (compute_embeddings model df).1.map Prod.fst =
        df.map Prod.fst ++ ["text_rule"]) ∧
    (∀ name, name ≠ "cluster_id" → name ≠ "cluster_label" →
      getCol (cluster_rules df X).1 name = getCol df name) ∧
    getCol (cluster_rules df X).1 "cluster_id" =
      some ((dbscan_labels X 1).map Cell.int) ∧
    getCol (cluster_rules df X).1 "cluster_label" =
      some ((dbscan_labels X 1).map (fun l => Cell.txt (lookupLabel
        ((isortAsc id (dbscan_labels X 1).eraseDups).map
          (fun cid => (cid, top_tokens ((colVals df "text_rule").map textOfCell)
            (dbscan_labels X 1) cid))) l))) ∧
    ("cluster_id" ∉ df.map Prod.fst → "cluster_label" ∉ df.map Prod.fst →
      (cluster_rules df X).1.map Prod.fst =
        df.map Prod.fst ++ ["cluster_id", "cluster_label"]) := by
  refine ⟨?_, ?_, ?_, ?_, ?_, ?_, ?_⟩
  · intro name h
    exact getCol_setCol_other df "text_rule" name _ h
  · exact getCol_setCol_same df "text_rule" _
  · intro h
    exact setCol_names_fresh df "text_rule" _ h
  · intro name h1 h2
    unfold cluster_rules
    simp only
    rw [getCol_setCol_other _ "cluster_label" name _ h2]
    exact getCol_setCol_other df "cluster_id" name _ h1
  · unfold cluster_rules
    simp only
    rw [getCol_setCol_other _ "cluster_label" "cluster_id" _ (by decide)]
    exact getCol_setCol_same df "cluster_id" _
  · exact getCol_setCol_same _ "cluster_label" _
  · intro h1 h2
    unfold cluster_rules
    simp only
    rw [setCol_names_fresh _ "cluster_label" _ (by
      rw [setCol_names_fresh df "cluster_id" _ h1]
      simp only [List.mem_append, List.mem_singleton]
      rintro (hc | hc)
      · exact h2 hc
      · exact absurd hc (by decide))]
    rw [setCol_names_fresh df "cluster_id" _ h1, List.append_assoc]
    rfl

/-- Witness for C8: on a concrete two-column table, a pre-existing column is
unchanged and the new columns are appended at the end. -/
theorem C8_frame_effects_witness :
    ("rulename" : String) ≠ "text_rule" ∧
    getCol (compute_embeddings (fun _ => [[(1 : ℚ)]])
      [("rulename", [Cell.txt "R1"]), ("rule_json", [Cell.txt "5"])]).1 "rulename" =
      getCol [("rulename", [Cell.txt "R1"]), ("rule_json", [Cell.txt "5"])] "rulename" ∧
    (compute_embeddings (fun _ => [[(1 : ℚ)]])
      [("rulename", [Cell.txt "R1"]), ("rule_json", [Cell.txt "5"])]).1.map Prod.fst =
      ["rulename", "rule_json"] ++ ["text_rule"] :=
  ⟨by decide,
    (C8_frame_effects [("rulename", [Cell.txt "R1"]), ("rule_json", [Cell.txt "5"])]
      [[1]] (fun _ => [[1]])).1 "rulename" (by decide),
    (C8_frame_effects [("rulename", [Cell.txt "R1"]), ("rule_json", [Cell.txt "5"])]
      [[1]] (fun _ => [[1]])).2.2.1 (by decide)⟩

end RuleSim
